import Mathlib

/-!
Verification development for the pysubtools2 subtitle library.

The definitions below are a shallow embedding of the Python sources under
pysubtools2/ (subtitle/time.py, subtitle/formatting.py, subtitle/subtitle.py,
parsers/html_parsing.py, parsers/subrip.py, parsers/microdvd.py,
exporters/subrip.py, exporters/microdvd.py, exporters/html_injection.py).

Modelling conventions:
* Python `str` is modelled by `String` / `List Char`; character offsets are
  `Int` (Python ints are unbounded).
* A raised Python exception is modelled by `Except PyErr`; code that cannot
  raise is given directly.
* Python `float` values are modelled exactly by the unreduced fraction type
  `PyF`; IEEE-754 rounding is not modelled (no verified claim depends on it).
* Python string helpers (`strip`, `split`, `splitlines`, `replace`, slicing,
  `int()`, `float()`) are re-implemented below with Python's documented
  semantics for the ASCII inputs that occur in subtitle files; exotic Unicode
  categories (e.g. non-ASCII digits) are not modelled.
-/

namespace PySub

/-- Python exception kinds that the embedded code can raise. -/
inductive PyErr where
  | valueError
  | indexError
  deriving DecidableEq, Repr

deriving instance DecidableEq for Except

/-- Whitespace characters stripped by Python `str.strip()` (ASCII subset). -/
def pyIsSpace (c : Char) : Bool :=
  c = ' ' || c = '\t' || c = '\n' || c = '\r' || c = Char.ofNat 11 || c = Char.ofNat 12

/-- Python `str.strip()` on a character list. -/
def pyStripList (cs : List Char) : List Char :=
  ((cs.dropWhile pyIsSpace).reverse.dropWhile pyIsSpace).reverse

/-- Python `str.strip()`. -/
def pyStrip (s : String) : String :=
  ⟨pyStripList s.data⟩

/-- Python `str.splitlines()` (recognising `\n`, `\r`, `\r\n`). -/
def splitLinesAux (cs : List Char) (acc : List Char) : List String :=
  match cs with
  | [] => if acc.isEmpty then [] else [⟨acc.reverse⟩]
  | '\r' :: '\n' :: rest => ⟨acc.reverse⟩ :: splitLinesAux rest []
  | '\r' :: rest => ⟨acc.reverse⟩ :: splitLinesAux rest []
  | '\n' :: rest => ⟨acc.reverse⟩ :: splitLinesAux rest []
  | c :: rest => splitLinesAux rest (c :: acc)

/-- Python `str.splitlines()`. -/
def pyLines (s : String) : List String :=
  splitLinesAux s.data []

/-- Remove every UTF-8 BOM character, as `text.replace("﻿", "")` does. -/
def stripBOM (s : String) : String :=
  ⟨s.data.filter (fun c => c ≠ Char.ofNat 0xfeff)⟩

/-- Index of the first occurrence of `needle` in `hay`, if any. -/
def findSub (needle : List Char) : List Char → Option Nat
  | [] => if needle.isEmpty then some 0 else none
  | c :: rest =>
    if needle.isPrefixOf (c :: rest) then some 0
    else (findSub needle rest).map (· + 1)

/-- Python `sub in s` substring test. -/
def strContains (s sub : String) : Bool :=
  (findSub sub.data s.data).isSome

/-- Python `s.split(sep, maxsplit)` worker (`max? = none` means unlimited;
the fuel is ample because every step consumes at least one character). -/
def pySplitGo (sep : List Char) (fuel : Nat) (cs : List Char)
    (max? : Option Nat) (acc : List Char) : List (List Char) :=
  match fuel with
  | 0 => [acc.reverse ++ cs]
  | fuel + 1 =>
    match cs with
    | [] => [acc.reverse]
    | c :: rest =>
      if sep ≠ [] ∧ sep.isPrefixOf (c :: rest) ∧ (max?.getD 1) ≠ 0 then
        acc.reverse ::
          pySplitGo sep fuel (List.drop (sep.length - 1) rest)
            (max?.map (· - 1)) []
      else
        pySplitGo sep fuel rest max? (c :: acc)

/-- Python `s.split(sep)` (optionally with a maxsplit bound). -/
def pySplitSep (s sep : String) (max? : Option Nat := none) : List String :=
  (pySplitGo sep.data (s.data.length + 1) s.data max? []).map (fun cs => ⟨cs⟩)

/-- Python `s.split(sep, 1)`, returning the two halves when `sep` occurs. -/
def pySplitOnce (s sep : String) : Option (String × String) :=
  match pySplitSep s sep (some 1) with
  | [a, b] => some (a, b)
  | _ => none

/-- Python whitespace `s.split()` (runs of whitespace, empties discarded). -/
def pySplitWSAux (cs : List Char) (acc : List Char) : List String :=
  match cs with
  | [] => if acc.isEmpty then [] else [⟨acc.reverse⟩]
  | c :: rest =>
    if pyIsSpace c then
      if acc.isEmpty then pySplitWSAux rest []
      else ⟨acc.reverse⟩ :: pySplitWSAux rest []
    else pySplitWSAux rest (c :: acc)

/-- Python `s.split()` with no separator argument. -/
def pySplitWS (s : String) : List String :=
  pySplitWSAux s.data []

/-- Python `s.replace(old, new)` worker (non-overlapping, left to right;
the fuel is ample because every step consumes at least one character). -/
def strReplaceGo (old new : List Char) (fuel : Nat) (cs : List Char) :
    List Char :=
  match fuel with
  | 0 => cs
  | fuel + 1 =>
    match cs with
    | [] => []
    | c :: rest =>
      if old ≠ [] ∧ old.isPrefixOf (c :: rest) then
        new ++ strReplaceGo old new fuel (List.drop (old.length - 1) rest)
      else
        c :: strReplaceGo old new fuel rest

/-- Python `s.replace(old, new)`. -/
def strReplace (s old new : String) : String :=
  ⟨strReplaceGo old.data new.data (s.data.length + 1) s.data⟩

/-- Python `str.lower()` (ASCII). -/
def pyLower (s : String) : String :=
  ⟨s.data.map Char.toLower⟩

/-- Python `str.upper()` (ASCII). -/
def pyUpper (s : String) : String :=
  ⟨s.data.map Char.toUpper⟩

/-- Python `str.isupper()`: some cased character, and all cased characters
uppercase (ASCII letters are the cased characters modelled). -/
def pyIsUpper (s : String) : Bool :=
  s.data.any (fun c => c.isUpper || c.isLower) &&
    s.data.all (fun c => !c.isLower)

/-- Python `str.isnumeric()` (ASCII decimal digits). -/
def pyIsNumeric (s : String) : Bool :=
  s ≠ "" && s.data.all Char.isDigit

/-- Decimal digit list to a natural number. -/
def digitsToNat (ds : List Char) : Nat :=
  ds.foldl (fun n c => n * 10 + (c.toNat - '0'.toNat)) 0

/-- Python `int(s)`: optional surrounding whitespace, optional sign,
at least one decimal digit (digit-group underscores are not modelled). -/
def pyIntOfString (s : String) : Option Int :=
  let cs := pyStripList s.data
  let (sign, ds) : Int × List Char :=
    match cs with
    | c :: rest =>
      if c = '-' then (-1, rest)
      else if c = '+' then (1, rest)
      else (1, c :: rest)
    | [] => (1, [])
  if ds ≠ [] ∧ ds.all Char.isDigit then
    some (sign * (digitsToNat ds : Int))
  else none

/-- Hexadecimal digit value. -/
def hexDigitVal (c : Char) : Option Nat :=
  if c.isDigit then some (c.toNat - '0'.toNat)
  else if 'a' ≤ c ∧ c ≤ 'f' then some (c.toNat - 'a'.toNat + 10)
  else if 'A' ≤ c ∧ c ≤ 'F' then some (c.toNat - 'A'.toNat + 10)
  else none

/-- Hex digit list to a natural number, failing on non-hex characters. -/
def hexToNat (ds : List Char) : Option Nat :=
  ds.foldl
    (fun acc c => do
      let n ← acc
      let v ← hexDigitVal c
      pure (n * 16 + v))
    (some 0)

/-- Python `int(s, 16)`: optional whitespace and sign, hex digits
(the optional `0x` prefix is not modelled; it does not occur in the data). -/
def pyIntHex (s : String) : Option Int :=
  let cs := pyStripList s.data
  let (sign, ds) : Int × List Char :=
    match cs with
    | '-' :: rest => (-1, rest)
    | '+' :: rest => (1, rest)
    | rest => (1, rest)
  if ds.isEmpty then none
  else (hexToNat ds).map (fun n => sign * (n : Int))

/-- Integer division truncating toward zero, as Python `int()` applied to an
exact quotient (division by zero yields 0; Python would raise, but no embedded
call site divides by zero). -/
def truncDiv (a b : Int) : Int :=
  let q : Nat := a.natAbs / b.natAbs
  if (a < 0 ∧ 0 < b) ∨ (0 < a ∧ b < 0) then -(q : Int) else (q : Int)

/-- Python floor division `//` on integers. -/
def floorDivP (a b : Int) : Int :=
  Int.fdiv a b

/-- Exact value of a Python `float`, kept as an unreduced fraction
(IEEE-754 rounding is not modelled; no verified claim depends on it). -/
structure PyF where
  num : Int
  den : Int
  deriving DecidableEq, Repr

/-- Embed an integer as a `PyF`. -/
def PyF.ofInt (n : Int) : PyF := ⟨n, 1⟩

/-- Value equality of two `PyF` fractions (Python `==` on floats). -/
def PyF.valEq (a b : PyF) : Bool :=
  a.num * b.den == b.num * a.den

/-- Python `int(x)` for a float `x`: truncation toward zero. -/
def PyF.trunc (x : PyF) : Int :=
  truncDiv x.num x.den

/-- Python `float(s)`: optional whitespace and sign, decimal digits with an
optional fractional part and exponent (`inf`/`nan` and digit-group
underscores are not modelled). -/
def pyFloatOfString (s : String) : Option PyF :=
  let cs := pyStripList s.data
  let (sign, rest0) : Int × List Char :=
    match cs with
    | '-' :: rest => (-1, rest)
    | '+' :: rest => (1, rest)
    | rest => (1, rest)
  let ip := rest0.takeWhile Char.isDigit
  let rest1 := rest0.dropWhile Char.isDigit
  let (fp, rest2) : List Char × List Char :=
    match rest1 with
    | '.' :: r => (r.takeWhile Char.isDigit, r.dropWhile Char.isDigit)
    | r => ([], r)
  if ip.isEmpty ∧ fp.isEmpty then none
  else
    let mantNum : Int := sign * (digitsToNat (ip ++ fp) : Int)
    let mantDen : Int := (10 ^ fp.length : Nat)
    match rest2 with
    | [] => some ⟨mantNum, mantDen⟩
    | e :: r =>
      if e = 'e' ∨ e = 'E' then
        let (esign, eds) : Bool × List Char :=
          match r with
          | '-' :: r2 => (true, r2)
          | '+' :: r2 => (false, r2)
          | r2 => (false, r2)
        if eds ≠ [] ∧ eds.all Char.isDigit then
          let ex := digitsToNat eds
          if esign then some ⟨mantNum, mantDen * (10 ^ ex : Nat)⟩
          else some ⟨mantNum * (10 ^ ex : Nat), mantDen⟩
        else none
      else none

/-- Zero-pad the decimal rendering of a nonnegative integer to `width`
characters, as Python `f"{n:0Nd}"` does for nonnegative `n`. -/
def padZeroes (width : Nat) (n : Int) : String :=
  let s := toString n
  if s.length < width then
    ⟨List.replicate (width - s.length) '0'⟩ ++ s
  else s

/-- Lowercase hex digit character for a value below 16. -/
def hexChar (n : Nat) : Char :=
  if n < 10 then Char.ofNat ('0'.toNat + n)
  else Char.ofNat ('a'.toNat + (n - 10))

/-- Python `f"{n:02x}"` for a byte value. -/
def hexByte (n : Int) : String :=
  let m := n.toNat
  ⟨[hexChar (m / 16 % 16), hexChar (m % 16)]⟩

/-- Stable insertion used by `pySortBy`: place `x` before the first element
strictly greater than it. -/
def insertStable (lt : α → α → Bool) (x : α) : List α → List α
  | [] => [x]
  | y :: ys => if lt x y then x :: y :: ys else y :: insertStable lt x ys

/-- Stable sort with strict comparison `lt`, matching Python's stable
`list.sort(key=...)` (equal keys keep their original relative order). -/
def pySortBy (lt : α → α → Bool) (l : List α) : List α :=
  l.foldl (fun acc x => insertStable lt x acc) []

/-- Normalise a Python slice index against a length. -/
def sliceIndex (len : Nat) (i : Int) : Nat :=
  if i < 0 then
    (max 0 ((len : Int) + i)).toNat
  else
    min i.toNat len

/-- Python slice `s[lo:hi]` on a character list. -/
def sliceClamp (cs : List Char) (lo hi : Int) : List Char :=
  let a := sliceIndex cs.length lo
  let b := sliceIndex cs.length hi
  (cs.take b).drop a

/-- Python `text[:i] + ins + text[i:]`. -/
def spliceAt (s : String) (i : Int) (ins : String) : String :=
  ⟨sliceClamp s.data 0 i ++ ins.data ++ sliceClamp s.data i (s.data.length : Int)⟩

/-- Python `s.count(c, lo, hi)` for a single-character needle. -/
def pyCountChar (s : String) (c : Char) (lo hi : Int) : Nat :=
  (sliceClamp s.data lo hi).count c

/-- Python `"sep".join(xs)`. -/
def pyJoin (sep : String) : List String → String
  | [] => ""
  | [x] => x
  | x :: xs => x ++ sep ++ pyJoin sep xs

/-- Python `"".join(xs)`. -/
def concatAll : List String → String
  | [] => ""
  | x :: xs => x ++ concatAll xs

/-- Insertion-ordered dictionary from strings to sets of strings
(`collections.defaultdict(set)`; a set is modelled as a duplicate-free list
in insertion order, which is exact for the singleton and sorted uses that
occur in the embedded code). -/
abbrev SetDict := List (String × List String)

/-- Add `v` to the set stored under `k` (`d[k].add(v)`). -/
def setDictAdd (d : SetDict) (k v : String) : SetDict :=
  match d with
  | [] => [(k, [v])]
  | (k', vs) :: rest =>
    if k' = k then
      (k', if vs.contains v then vs else vs ++ [v]) :: rest
    else (k', vs) :: setDictAdd rest k v

/-- Replace the set stored under `k` (`d[k] = v`). -/
def setDictAssign (d : SetDict) (k : String) (vs : List String) : SetDict :=
  match d with
  | [] => [(k, vs)]
  | (k', vs') :: rest =>
    if k' = k then (k', vs) :: rest
    else (k', vs') :: setDictAssign rest k vs

/-- Like `SetDict` but keyed by a line index and a code
(`defaultdict` keyed by `(line, identifier)` in microdvd.py). -/
abbrev LineDict := List ((Nat × String) × List String)

/-- Add `v` to the set stored under the line/code key. -/
def lineDictAdd (d : LineDict) (k : Nat × String) (v : String) : LineDict :=
  match d with
  | [] => [(k, [v])]
  | (k', vs) :: rest =>
    if k' = k then
      (k', if vs.contains v then vs else vs ++ [v]) :: rest
    else (k', vs) :: lineDictAdd rest k v

/-! ## Data model (subtitle/formatting.py, subtitle/time.py,
subtitle/subtitle.py) -/

/-- `PositionClassifier` (screen grid cell, rows bottom to top): the enum
value, 1–9.  `TOP_CENTER = 8`. -/
abbrev PositionClassifier := Nat

/-- `PositionClassifier.TOP_CENTER`. -/
def topCenter : PositionClassifier := 8

/-- The closed set of `Formatting` dataclasses.  Span-scoped variants carry
half-open character offsets `start`/`stop` (`end` in Python) into the owning
cue's text; `relativePosition`/`absolutePosition` are cue-scoped. -/
inductive Formatting where
  | bold (start stop : Int)
  | italic (start stop : Int)
  | underline (start stop : Int)
  | strikethrough (start stop : Int)
  | color (start stop : Int) (r g b a : PyF)
  | fontFace (start stop : Int) (face : String)
  | textSize (start stop : Int) (size : Int)
  | relativePosition (classifier : PositionClassifier)
  | absolutePosition (x1 x2 y1 y2 : Int)
  deriving DecidableEq, Repr

/-- The span offsets of a span-scoped formatting (positions have none). -/
def Formatting.span? : Formatting → Option (Int × Int)
  | .bold s e => some (s, e)
  | .italic s e => some (s, e)
  | .underline s e => some (s, e)
  | .strikethrough s e => some (s, e)
  | .color s e _ _ _ _ => some (s, e)
  | .fontFace s e _ => some (s, e)
  | .textSize s e _ => some (s, e)
  | .relativePosition _ => none
  | .absolutePosition _ _ _ _ => none

/-- The §3 invariant for one formatting: span-scoped offsets satisfy
`0 ≤ start ≤ end ≤ len(text)`; cue-scoped positions carry no offsets. -/
def spanOk (f : Formatting) (text : String) : Bool :=
  match f.span? with
  | some (s, e) => 0 ≤ s && s ≤ e && e ≤ (text.length : Int)
  | none => true

/-- The index-shift step from `SubtitleHTMLTagParser.close`: after splicing
a tag of length `len` at `pos`, spans starting at or after `pos` shift fully,
spans merely ending at or after it shift their end only (the subrip.py copy
guards with `isinstance(formatting, Span)`, so positions are untouched). -/
def shiftFormatting (pos len : Int) (f : Formatting) : Formatting :=
  match f with
  | .bold s e =>
    if s ≥ pos then .bold (s + len) (e + len)
    else if e ≥ pos then .bold s (e + len) else f
  | .italic s e =>
    if s ≥ pos then .italic (s + len) (e + len)
    else if e ≥ pos then .italic s (e + len) else f
  | .underline s e =>
    if s ≥ pos then .underline (s + len) (e + len)
    else if e ≥ pos then .underline s (e + len) else f
  | .strikethrough s e =>
    if s ≥ pos then .strikethrough (s + len) (e + len)
    else if e ≥ pos then .strikethrough s (e + len) else f
  | .color s e r g b a =>
    if s ≥ pos then .color (s + len) (e + len) r g b a
    else if e ≥ pos then .color s (e + len) r g b a else f
  | .fontFace s e fc =>
    if s ≥ pos then .fontFace (s + len) (e + len) fc
    else if e ≥ pos then .fontFace s (e + len) fc else f
  | .textSize s e sz =>
    if s ≥ pos then .textSize (s + len) (e + len) sz
    else if e ≥ pos then .textSize s (e + len) sz else f
  | .relativePosition _ => f
  | .absolutePosition _ _ _ _ => f

/-- `isinstance(a, b.__class__)` for two formattings (the leaf dataclasses
have no subclass relations among themselves). -/
def sameClass (a b : Formatting) : Bool :=
  match a, b with
  | .bold _ _, .bold _ _ => true
  | .italic _ _, .italic _ _ => true
  | .underline _ _, .underline _ _ => true
  | .strikethrough _ _, .strikethrough _ _ => true
  | .color _ _ _ _ _ _, .color _ _ _ _ _ _ => true
  | .fontFace _ _ _, .fontFace _ _ _ => true
  | .textSize _ _ _, .textSize _ _ _ => true
  | .relativePosition _, .relativePosition _ => true
  | .absolutePosition _ _ _ _, .absolutePosition _ _ _ _ => true
  | _, _ => false

/-- Python `==` on two formattings: the dataclass-generated field-by-field
comparison of each leaf class (float fields compare by value). -/
def pyEqFormatting (a b : Formatting) : Bool :=
  match a, b with
  | .bold s1 e1, .bold s2 e2 => s1 == s2 && e1 == e2
  | .italic s1 e1, .italic s2 e2 => s1 == s2 && e1 == e2
  | .underline s1 e1, .underline s2 e2 => s1 == s2 && e1 == e2
  | .strikethrough s1 e1, .strikethrough s2 e2 => s1 == s2 && e1 == e2
  | .color s1 e1 r1 g1 b1 a1, .color s2 e2 r2 g2 b2 a2 =>
    s1 == s2 && e1 == e2 && r1.valEq r2 && g1.valEq g2 && b1.valEq b2 &&
      a1.valEq a2
  | .fontFace s1 e1 f1, .fontFace s2 e2 f2 => s1 == s2 && e1 == e2 && f1 == f2
  | .textSize s1 e1 z1, .textSize s2 e2 z2 => s1 == s2 && e1 == e2 && z1 == z2
  | .relativePosition c1, .relativePosition c2 => c1 == c2
  | .absolutePosition x1 x2 y1 y2, .absolutePosition x1' x2' y1' y2' =>
    x1 == x1' && x2 == x2' && y1 == y1' && y2 == y2'
  | _, _ => false

/-- `Time` (subtitle/time.py): millisecond storage. -/
structure Time where
  milliseconds : Int
  deriving DecidableEq, Repr

/-- `Time.from_human_time`. -/
def Time.fromHumanTime (ms s m h : Int) : Time :=
  ⟨ms + h * 3600000 + m * 60000 + s * 1000⟩

/-- `Time.from_frame(frame, framerate)`:
`int(frame / framerate * 1000)` milliseconds. -/
def Time.fromFrame (frame : Int) (framerate : PyF) : Time :=
  ⟨PyF.trunc ⟨frame * framerate.den * 1000, framerate.num⟩⟩

/-- `Time.to_frame(framerate)`: `int(ms / 1000 * framerate)`. -/
def Time.toFrame (t : Time) (framerate : PyF) : Int :=
  PyF.trunc ⟨t.milliseconds * framerate.num, 1000 * framerate.den⟩

/-- `Time.human_time`: hours, minutes, seconds, milliseconds. -/
def Time.humanTime (t : Time) : Int × Int × Int × Int :=
  let ms0 := t.milliseconds
  let hours := floorDivP ms0 3600000
  let ms1 := ms0 - hours * 3600000
  let minutes := floorDivP ms1 60000
  let ms2 := ms1 - minutes * 60000
  let seconds := floorDivP ms2 1000
  let ms3 := ms2 - seconds * 1000
  (hours, minutes, seconds, ms3)

/-- Operand of a `Time` arithmetic dunder: `int`, `float`, or `Time`. -/
inductive PyNum where
  | int (n : Int)
  | float (x : PyF)
  | time (t : Time)
  deriving DecidableEq, Repr

/-- Milliseconds contributed by an operand, via `int(other)` for numbers. -/
def PyNum.toMs : PyNum → Int
  | .int n => n
  | .float x => x.trunc
  | .time t => t.milliseconds

/-- `Time.__add__` / `__iadd__` / `__radd__`. -/
def timeAdd (t : Time) (other : PyNum) : Time :=
  ⟨t.milliseconds + other.toMs⟩

/-- `Time.__sub__`: the result is clamped at zero
("Time cannot be smaller than 0 milliseconds"). -/
def timeSub (t : Time) (other : PyNum) : Time :=
  ⟨max 0 (t.milliseconds - other.toMs)⟩

/-- `Time.__isub__` (`t -= v`): no clamping is applied. -/
def timeISub (t : Time) (other : PyNum) : Time :=
  ⟨t.milliseconds - other.toMs⟩

/-- `Time.__rsub__` (`v - t` for int/float `v`): no clamping is applied. -/
def timeRSub (t : Time) (other : PyNum) : Time :=
  ⟨other.toMs - t.milliseconds⟩

/-- `SubtitleUnit` (subtitle/subtitle.py): a cue.  Python's `end` field is
named `stop` here (`end` is a Lean keyword). -/
structure SubtitleUnit where
  start : Time
  stop : Time
  text : String
  formattings : List Formatting
  deriving DecidableEq, Repr

/-- `SubtitleUnit.character_count(True)`: `len(self.text)`. -/
def SubtitleUnit.characterCountWS (u : SubtitleUnit) : Int :=
  (u.text.length : Int)

/-- `SubtitleUnit.lines_of_formatting`: the 0-based indices of the lines a
span `[s, e)` overlaps, computed by counting newlines before and inside it. -/
def SubtitleUnit.linesOfFormatting (u : SubtitleUnit) (s e : Int) : List Nat :=
  let startLine := pyCountChar u.text '\n' 0 s
  let endLine := startLine + pyCountChar u.text '\n' s e
  List.range' startLine (endLine - startLine + 1)

/-- `Subtitle`: the ordered cue list. -/
abbrev Subtitle := List SubtitleUnit

/-! ## Colors (subtitle/formatting.py) -/

/-- Modelled from the spec: `subtitle/color.py` (`SUPPORTED_COLOR_NAMES`) is
not among the sources; §4.1 only says unknown color names are dropped
silently, so the name table is modelled as empty and every name lookup
fails.  No claim depends on a named color. -/
def supportedColorLookup (_name : String) : Option (PyF × PyF × PyF) :=
  none

/-- The shared slicing of `Color.from_hex` / `from_bgr_hex`: hex byte pairs
at offsets 0, 2, 4 of the cleaned string (clamped slices, so short strings
produce empty slices whose `int(_, 16)` raises). -/
def hexTriple (cs : String) : Option (Int × Int × Int) := do
  let p0 ← pyIntHex ⟨sliceClamp cs.data 0 2⟩
  let p1 ← pyIntHex ⟨sliceClamp cs.data 2 4⟩
  let p2 ← pyIntHex ⟨sliceClamp cs.data 4 6⟩
  pure (p0, p1, p2)

/-- `Color.from_hex` (strips `#`; `none` models the `ValueError`). -/
def colorFromHex (start stop : Int) (str0 : String) : Option Formatting :=
  (hexTriple (strReplace str0 "#" "")).map fun (r, g, b) =>
    .color start stop ⟨r, 255⟩ ⟨g, 255⟩ ⟨b, 255⟩ ⟨1, 1⟩

/-- `Color.from_bgr_hex` (strips `$`; first pair is blue). -/
def colorFromBgrHex (start stop : Int) (str0 : String) : Option Formatting :=
  (hexTriple (strReplace str0 "$" "")).map fun (b, g, r) =>
    .color start stop ⟨r, 255⟩ ⟨g, 255⟩ ⟨b, 255⟩ ⟨1, 1⟩

/-- `Color.from_string`: lowercase and strip, try hex, then the name table,
else `None`. -/
def colorFromString (start stop : Int) (v : String) : Option Formatting :=
  let v := pyLower (pyStrip v)
  match colorFromHex start stop v with
  | some c => some c
  | none =>
    (supportedColorLookup v).map fun (r, g, b) =>
      .color start stop r g b ⟨1, 1⟩

/-- `Color.to_hex`: `#rrggbb` from the 0–1 channel values. -/
def colorToHex (r g b : PyF) : String :=
  let byteOf (x : PyF) : Int := PyF.trunc ⟨x.num * 255, x.den⟩
  "#" ++ hexByte (byteOf r) ++ hexByte (byteOf g) ++ hexByte (byteOf b)

/-- `Color.to_bgr_hex`: `$bbggrr`. -/
def colorToBgrHex (r g b : PyF) : String :=
  let byteOf (x : PyF) : Int := PyF.trunc ⟨x.num * 255, x.den⟩
  "$" ++ hexByte (byteOf b) ++ hexByte (byteOf g) ++ hexByte (byteOf r)

/-! ## Generic markup tag machine (parsers/html_parsing.py; subrip.py holds
an identical copy whose only difference is an `isinstance(formatting, Span)`
guard in the shift loop, which is vacuous because every collected formatting
is span-scoped). -/

/-- `VALID_HTML_TAGS`. -/
def validHtmlTag (t : String) : Bool :=
  t = "b" || t = "i" || t = "u" || t = "s" || t = "font"

/-- `TagSpan`: an open- or closed-tag frame. -/
structure TagSpan where
  tag : String
  attributes : List (String × Option String)
  start : Int
  stop : Option Int
  deriving DecidableEq, Repr

/-- The mutable state of `SubtitleHTMLTagParser`. -/
structure HtmlState where
  position : Int
  textParts : List String
  stack : List TagSpan
  spans : List TagSpan
  deriving DecidableEq, Repr

/-- The fresh parser state. -/
def htmlInit : HtmlState := ⟨0, [], [], []⟩

/-- One event from the host HTML tokenizer. -/
inductive HtmlEvent where
  | startTag (tag : String) (attrs : List (String × Option String))
  | endTag (tag : String)
  | data (s : String)
  deriving DecidableEq, Repr

/-- Pop the topmost stack frame with the given tag, searching from the top
(the end of the Python list) downward. -/
def popLastMatching (tag : String) : List TagSpan →
    Option (List TagSpan × TagSpan)
  | [] => none
  | x :: xs =>
    match popLastMatching tag xs with
    | some (xs', sp) => some (x :: xs', sp)
    | none => if x.tag = tag then some (xs, x) else none

/-- `handle_starttag`: push an open frame at the current offset. -/
def handleStartTag (st : HtmlState) (tag : String)
    (attrs : List (String × Option String)) : HtmlState :=
  { st with stack := st.stack ++ [⟨tag, attrs, st.position, none⟩] }

/-- `handle_endtag`: close the nearest matching frame, or splice the literal
`</tag>` text at the cursor when no frame matches. -/
def handleEndTag (st : HtmlState) (tag : String) : HtmlState :=
  match popLastMatching tag st.stack with
  | some (stack', sp) =>
    { st with
        stack := stack'
        spans := st.spans ++ [{ sp with stop := some st.position }] }
  | none =>
    let tagStr := "</" ++ tag ++ ">"
    { st with
        position := st.position + (tagStr.length : Int)
        textParts := st.textParts ++ [tagStr] }

/-- `handle_data`: emit text and advance the cursor. -/
def handleData (st : HtmlState) (s : String) : HtmlState :=
  { st with
      textParts := st.textParts ++ [s]
      position := st.position + (s.length : Int) }

/-- Dispatch one tokenizer event. -/
def htmlStep (st : HtmlState) (e : HtmlEvent) : HtmlState :=
  match e with
  | .startTag tag attrs => handleStartTag st tag attrs
  | .endTag tag => handleEndTag st tag
  | .data s => handleData st s

/-- Feed a whole event list to a fresh machine. -/
def htmlRun (evs : List HtmlEvent) : HtmlState :=
  evs.foldl htmlStep htmlInit

/-- `_build_start_tag`: re-render the literal opening tag text. -/
def buildStartTag (tag : String) (attrs : List (String × Option String)) :
    String :=
  "<" ++ tag ++
    String.join (attrs.map fun (k, v?) =>
      match v? with
      | some v => " " ++ k ++ "=\"" ++ v ++ "\""
      | none => " " ++ k) ++ ">"

/-- One attribute of `_font_from_attributes`: `color`/`face`/`size` values
become formattings over the frame's span; anything else is dropped
silently. -/
def fontAttrStep (start stop : Int) (acc : List Formatting)
    (kv : String × Option String) : List Formatting :=
  match kv.2 with
  | none => acc
  | some v =>
    if v = "" then acc
    else
      let key := pyLower kv.1
      if key = "color" then
        match colorFromString start stop v with
        | some c => acc ++ [c]
        | none => acc
      else if key = "face" then acc ++ [.fontFace start stop v]
      else if key = "size" then
        match pyIntOfString v with
        | some n => acc ++ [.textSize start stop n]
        | none => acc
      else acc

/-- `_init_valid_formatting` (with `_font_from_attributes` inlined for the
`font` case; invalid attribute values are dropped silently). -/
def initValidFormatting (tag : String)
    (attrs : List (String × Option String)) (start stop : Int) :
    List Formatting :=
  if tag = "font" then attrs.foldl (fontAttrStep start stop) []
  else if tag = "b" then [.bold start stop]
  else if tag = "i" then [.italic start stop]
  else if tag = "u" then [.underline start stop]
  else if tag = "s" then [.strikethrough start stop]
  else []

/-- Lexicographic order on strings by code point (Python `<` on `str`). -/
def strLtB : List Char → List Char → Bool
  | [], [] => false
  | [], _ :: _ => true
  | _ :: _, [] => false
  | a :: as, b :: bs =>
    if a.toNat < b.toNat then true
    else if a.toNat = b.toNat then strLtB as bs
    else false

/-- Python `<` on strings. -/
def strLt (a b : String) : Bool :=
  strLtB a.data b.data

/-- Python `<` on `(int, str)` pairs (tuple comparison). -/
def posTagLt (a b : Int × String) : Bool :=
  a.1 < b.1 || (a.1 == b.1 && strLt a.2 b.2)

/-- Splice one literal invalid opening tag back into the text and shift
the affected span offsets (`close()`'s final loop body). -/
def invalidTagSplice (acc : String × List Formatting) (pt : Int × String) :
    String × List Formatting :=
  (spliceAt acc.1 pt.1 pt.2,
    acc.2.map (shiftFormatting pt.1 (pt.2.length : Int)))

/-- One collected span of `close()`: a closed frame contributes
formattings, a still-open one a literal tag text to re-insert. -/
def closeStep (acc : List Formatting × List (Int × String)) (sp : TagSpan) :
    List Formatting × List (Int × String) :=
  match sp.stop with
  | none =>
    (acc.1, acc.2 ++ [(sp.start, buildStartTag sp.tag sp.attributes)])
  | some e =>
    (acc.1 ++ initValidFormatting sp.tag sp.attributes sp.start e,
      acc.2)

/-- Partition the collected spans of `close()` into formattings (closed
frames) and literal invalid tags (still-open unrecognized frames). -/
def closePartition (spans : List TagSpan) :
    List Formatting × List (Int × String) :=
  spans.foldl closeStep ([], [])

/-- `close()`: finish open frames, join the text, turn closed frames into
formattings, and splice still-open unrecognized opening tags back into the
text (descending by position), shifting affected span offsets. -/
def htmlClose (st : HtmlState) : String × List Formatting :=
  let spans :=
    st.spans ++
      st.stack.map fun sp =>
        if validHtmlTag sp.tag then { sp with stop := some st.position }
        else sp
  let text0 := concatAll st.textParts
  let (fmts0, invalid) := closePartition spans
  let sortedInvalid := pySortBy (fun a b => posTagLt b a) invalid
  sortedInvalid.foldl invalidTagSplice (text0, fmts0)

/-- Feed raw text to a fresh machine and close it, returning the cleaned
text and the collected formattings. -/
def htmlFeedClose (evs : List HtmlEvent) : String × List Formatting :=
  htmlClose (htmlRun evs)

/-! ## Host HTML tokenizer model -/

/-- Attribute list scanner used by `tokenizeHTML` (fuel-bounded). -/
def parseAttrsAux (fuel : Nat) (cs : List Char) :
    List (String × Option String) :=
  match fuel with
  | 0 => []
  | fuel + 1 =>
    let cs := cs.dropWhile pyIsSpace
    match cs with
    | [] => []
    | _ =>
      let name := cs.takeWhile fun c => !pyIsSpace c && c ≠ '=' && c ≠ '>'
      let rest := cs.dropWhile fun c => !pyIsSpace c && c ≠ '=' && c ≠ '>'
      if name.isEmpty then parseAttrsAux fuel cs.tail
      else
        match rest with
        | '=' :: '"' :: r =>
          let v := r.takeWhile (· ≠ '"')
          (pyLower ⟨name⟩, some ⟨v⟩) ::
            parseAttrsAux fuel ((r.dropWhile (· ≠ '"')).tail)
        | '=' :: '\'' :: r =>
          let v := r.takeWhile (· ≠ '\'')
          (pyLower ⟨name⟩, some ⟨v⟩) ::
            parseAttrsAux fuel ((r.dropWhile (· ≠ '\'')).tail)
        | '=' :: r =>
          let v := r.takeWhile fun c => !pyIsSpace c && c ≠ '>'
          (pyLower ⟨name⟩, some ⟨v⟩) ::
            parseAttrsAux fuel (r.dropWhile fun c => !pyIsSpace c && c ≠ '>')
        | r => (pyLower ⟨name⟩, none) :: parseAttrsAux fuel r

/-- Modelled from the spec: the host HTML tokenizer (`html.parser` in the
reference implementation, which is not part of this repository).  Following
§9, it is re-modelled as a small explicit tokenizer emitting start-tag,
end-tag and data events: `</name>` becomes an end tag, `<name attrs>` a start
tag (names and attribute names lowercased), everything else character data.
Character/entity references and malformed unterminated tags are not
modelled; they do not occur in the verified inputs. -/
def tokenizeAux (fuel : Nat) (cs : List Char) (acc : List Char) :
    List HtmlEvent :=
  match fuel with
  | 0 => if acc.isEmpty then [] else [.data ⟨acc.reverse⟩]
  | fuel + 1 =>
    match cs with
    | [] => if acc.isEmpty then [] else [.data ⟨acc.reverse⟩]
    | '<' :: '/' :: rest =>
      let name := rest.takeWhile (· ≠ '>')
      let rest' := (rest.dropWhile (· ≠ '>')).tail
      let ev := HtmlEvent.endTag (pyLower ⟨name⟩)
      if acc.isEmpty then ev :: tokenizeAux fuel rest' []
      else .data ⟨acc.reverse⟩ :: ev :: tokenizeAux fuel rest' []
    | '<' :: c :: rest =>
      if c.isAlpha then
        let inner := (c :: rest).takeWhile (· ≠ '>')
        let rest' := ((c :: rest).dropWhile (· ≠ '>')).tail
        let name := inner.takeWhile fun ch => ch.isAlpha || ch.isDigit
        let attrText := inner.dropWhile fun ch => ch.isAlpha || ch.isDigit
        let ev :=
          HtmlEvent.startTag (pyLower ⟨name⟩)
            (parseAttrsAux attrText.length attrText)
        if acc.isEmpty then ev :: tokenizeAux fuel rest' []
        else .data ⟨acc.reverse⟩ :: ev :: tokenizeAux fuel rest' []
      else tokenizeAux fuel (c :: rest) ('<' :: acc)
    | c :: rest => tokenizeAux fuel rest (c :: acc)

/-- Tokenize a whole string (fuel is the character count, ample because
every step consumes at least one character). -/
def tokenizeHTML (s : String) : List HtmlEvent :=
  tokenizeAux (s.data.length + 1) s.data []

/-! ## SSA positional-directive scanner (`SubtitleSSATagParser`,
regex `{\\*([\S:][\S]+)}`) -/

/-- Largest index `t ≥ 2` inside the non-space run with a closing brace
(the greedy `[\S]+` backtracks to the last brace it can hand back). -/
def lastBraceIdx (run : List Char) : Option Nat :=
  ((List.range run.length).filter fun t =>
      2 ≤ t && run.getD t ' ' = Char.ofNat 125).max?

/-- Try to match the regex body consuming exactly `k` backslashes with
`\\*`. -/
def ssaAttempt (k : Nat) (afterBrace : List Char) :
    Option (String × List Char) :=
  let j := afterBrace.drop k
  let run := j.takeWhile fun c => !pyIsSpace c
  match lastBraceIdx run with
  | some t => some (⟨j.take t⟩, j.drop (t + 1))
  | none => none

/-- Try to match the regex body right after an opening brace, consuming `k`
backslashes with `\\*` (backtracking from the maximal count downward). -/
def ssaTryK : Nat → List Char → Option (String × List Char)
  | 0, afterBrace => ssaAttempt 0 afterBrace
  | k + 1, afterBrace =>
    match ssaAttempt (k + 1) afterBrace with
    | some r => some r
    | none => ssaTryK k afterBrace

/-- Match the SSA tag regex at an opening brace, returning the captured
group and the remaining input. -/
def ssaTryMatch (afterBrace : List Char) : Option (String × List Char) :=
  ssaTryK ((afterBrace.takeWhile (· = Char.ofNat 92)).length) afterBrace

/-- Left-to-right non-overlapping scan, as `finditer`/`sub` perform:
returns the text with every match removed plus the captured groups. -/
def ssaScan (fuel : Nat) (cs : List Char) : List Char × List String :=
  match fuel, cs with
  | 0, rest => (rest, [])
  | _ + 1, [] => ([], [])
  | fuel + 1, c :: rest =>
    if c = Char.ofNat 123 then
      match ssaTryMatch rest with
      | some (g, rest') =>
        let (txt, gs) := ssaScan fuel rest'
        (txt, g :: gs)
      | none =>
        let (txt, gs) := ssaScan fuel rest
        (c :: txt, gs)
    else
      let (txt, gs) := ssaScan fuel rest
      (c :: txt, gs)

/-- `SubtitleSSATagParser.feed`: strip every matched directive from the
text; the first `an`-directive with a classifier in 1–9 sets the cue
position (invalid indices raise inside `handle_tag` and are caught). -/
def ssaFeed (text : String) : String × Option PositionClassifier :=
  let (cleanChars, groups) := ssaScan text.data.length text.data
  let pos :=
    groups.foldl
      (fun acc g =>
        if g.startsWith "an" ∧ (g.drop 2 ≠ "" ∧ (g.drop 2).data.all Char.isDigit)
        then
          match pyIntOfString (strReplace g "an" "") with
          | some n =>
            if 1 ≤ n ∧ n ≤ 9 then
              match acc with
              | some _ => acc
              | none => some n.toNat
            else acc
          | none => acc
        else acc)
      (none : Option PositionClassifier)
  (⟨cleanChars⟩, pos)

/-! ## SubRip parser (parsers/subrip.py) -/

/-- `SubRipParsingState` (the `BETWEEN_SUBS` member is never entered). -/
inductive SRState3 where
  | index
  | time
  | content
  deriving DecidableEq, Repr

/-- The mutable state of `SubRipParser`. -/
structure SubRipState where
  units : Subtitle
  state : SRState3
  startTime : Option Time
  endTime : Option Time
  formattings : List Formatting
  rawText : String
  tempText : String
  deriving DecidableEq, Repr

/-- A fresh `SubRipParser`. -/
def subRipInit : SubRipState :=
  ⟨[], .index, none, none, [], "", ""⟩

/-- `_formatting_already_exists`: same leaf class and Python-equal. -/
def formattingAlreadyExists (fmts : List Formatting) (f : Formatting) : Bool :=
  fmts.any fun g => sameClass g f && pyEqFormatting g f

/-- `self.formattings.extend(filter(...))`: the filter is consumed lazily
while extending, so each new formatting is checked against the list as
already extended. -/
def dedupExtend (fmts newFmts : List Formatting) : List Formatting :=
  newFmts.foldl
    (fun acc f => if formattingAlreadyExists acc f then acc else acc ++ [f])
    fmts

/-- `_parse_unit_text`: strip, run the SSA scanner (recording at most one
relative position, deduplicated), then the markup tag machine (formattings
deduplicated while extending); returns the cleaned text and formattings. -/
def parseUnitText (formattings0 : List Formatting) (text0 : String) :
    String × List Formatting :=
  let text1 := pyStrip text0
  let (ssaText, relPos?) := ssaFeed text1
  let fmts1 :=
    match relPos? with
    | some n =>
      let rp := Formatting.relativePosition n
      if formattingAlreadyExists formattings0 rp then formattings0
      else formattings0 ++ [rp]
    | none => formattings0
  let (htmlText, htmlFmts) := htmlFeedClose (tokenizeHTML ssaText)
  (htmlText, dedupExtend fmts1 htmlFmts)

/-- `_store_unit`: append the leftover buffer, parse the accumulated text,
emit the cue only when both times are set, then reset the per-cue state. -/
def storeUnit (st : SubRipState) : SubRipState :=
  let raw := st.rawText ++ st.tempText
  let (text, fmts) := parseUnitText st.formattings raw
  let units' :=
    match st.startTime, st.endTime with
    | some s, some e => st.units ++ [⟨s, e, text, fmts⟩]
    | _, _ => st.units
  { st with
      units := units'
      startTime := none
      endTime := none
      rawText := ""
      tempText := ""
      formattings := [] }

/-- `_parse_timestamp`: `H:M:S{,|.}mmm`; a missing colon or separator or a
non-numeric field raises `ValueError`. -/
def parseTimestamp (ts : String) : Except PyErr Time :=
  match pySplitSep ts ":" (some 2) with
  | [h, m, sms] =>
    let sep := if strContains sms "," then "," else "."
    match pySplitSep sms sep (some 1) with
    | [s, ms] =>
      let msStr : String := ⟨sliceClamp ms.data 0 3⟩
      match pyIntOfString h, pyIntOfString m, pyIntOfString s,
          pyIntOfString msStr with
      | some hh, some mm, some ss, some msv =>
        .ok (Time.fromHumanTime msv ss mm hh)
      | _, _, _, _ => .error .valueError
    | _ => .error .valueError
  | _ => .error .valueError

/-- Coordinate-token fold of `_parse_absolute_position`: `X1:`/`X2:`/`Y1:`/
`Y2:` labels assign `int(value)` (raising on a bad value); other tokens are
skipped. -/
def absPosFold (toks : List String) (x1 x2 y1 y2 : Option Int) :
    Except PyErr (Option Int × Option Int × Option Int × Option Int) :=
  match toks with
  | [] => .ok (x1, x2, y1, y2)
  | t :: rest =>
    if strContains t ":" then
      match pySplitOnce t ":" with
      | some (label, value) =>
        if label = "X1" then
          match pyIntOfString value with
          | some v => absPosFold rest (some v) x2 y1 y2
          | none => .error .valueError
        else if label = "X2" then
          match pyIntOfString value with
          | some v => absPosFold rest x1 (some v) y1 y2
          | none => .error .valueError
        else if label = "Y1" then
          match pyIntOfString value with
          | some v => absPosFold rest x1 x2 (some v) y2
          | none => .error .valueError
        else if label = "Y2" then
          match pyIntOfString value with
          | some v => absPosFold rest x1 x2 y1 (some v)
          | none => .error .valueError
        else absPosFold rest x1 x2 y1 y2
      | none => absPosFold rest x1 x2 y1 y2
    else absPosFold rest x1 x2 y1 y2

/-- `_parse_absolute_position`: whitespace-split the line, collect the four
coordinates, and produce an `AbsolutePosition` when all are present.  (The
Python method appends the position to `self.formattings` itself and returns
`None`, so the caller's duplicate check is dead code; the net effect — an
unconditional append when all four coordinates parse — is modelled by
returning the position to the caller.) -/
def parseAbsolutePosition (line : String) :
    Except PyErr (Option Formatting) :=
  match absPosFold (pySplitWS line) none none none none with
  | .error e => .error e
  | .ok (x1, x2, y1, y2) =>
    match x1, x2, y1, y2 with
    | some a, some b, some c, some d =>
      .ok (some (.absolutePosition a b c d))
    | _, _, _, _ => .ok none

/-- `_on_index_state`: an integer line flushes a complete pending cue and
moves to TIME; anything else is buffered as leftover text. -/
def onIndexState (st : SubRipState) (line : String) : SubRipState :=
  match pyIntOfString line with
  | some _ =>
    let st' := { st with state := SRState3.time }
    match st'.startTime, st'.endTime with
    | some _, some _ => storeUnit st'
    | _, _ => st'
  | none => { st with tempText := st.tempText ++ line ++ "\n" }

/-- `_on_time_state`: split on `-->`; parse both timestamps (which can
raise), read trailing absolute-position coordinates when an `X` appears in
the uppercased end half, and move to CONTENT. -/
def onTimeState (st : SubRipState) (line : String) :
    Except PyErr SubRipState :=
  match pySplitOnce line "-->" with
  | none => .ok st
  | some (startTs, endTs) =>
    match parseTimestamp startTs with
    | .error e => .error e
    | .ok startT =>
      match parseTimestamp endTs with
      | .error e => .error e
      | .ok endT =>
        let st := { st with startTime := some startT, endTime := some endT }
        let upperEnd := pyUpper endTs
        if strContains upperEnd "X" then
          match parseAbsolutePosition upperEnd with
          | .error e => .error e
          | .ok (some ap) =>
            .ok { st with
                    formattings := st.formattings ++ [ap]
                    state := SRState3.content }
          | .ok none => .ok { st with state := SRState3.content }
        else
          .ok { st with state := SRState3.content }

/-- `_on_content_state`: a blank line ends the cue body (seeding the next
leftover buffer with a newline); others accumulate with a newline. -/
def onContentState (st : SubRipState) (line : String) : SubRipState :=
  if line.length = 0 then
    { st with tempText := "\n", state := SRState3.index }
  else
    { st with rawText := st.rawText ++ line ++ "\n" }

/-- One stripped input line, dispatched on the current state. -/
def subRipStepLine (st : SubRipState) (rawLine : String) :
    Except PyErr SubRipState :=
  let line := pyStrip rawLine
  match st.state with
  | .index => .ok (onIndexState st line)
  | .time => onTimeState st line
  | .content => .ok (onContentState st line)

/-- Fold `subRipStepLine` over the input lines. -/
def subRipRunLines (st : SubRipState) (lines : List String) :
    Except PyErr SubRipState :=
  lines.foldlM subRipStepLine st

/-- `SubRipParser.parse_text`: strip BOMs, split lines, run the state
machine, and force a final flush when both times are set. -/
def subRipParseText (srtText : String) : Except PyErr Subtitle :=
  match subRipRunLines subRipInit (pyLines (stripBOM srtText)) with
  | .error e => .error e
  | .ok st =>
    .ok (match st.startTime, st.endTime with
      | some _, some _ => (storeUnit st).units
      | _, _ => st.units)

/-! ## SubRip exporter (exporters/subrip.py; the unfinished private helper
`_a`, which no code calls and which returns nothing, is not embedded) -/

/-- `FORMATTING_PRIORITIES` with the `.get(cls, 0)` default. -/
def formattingPriority (f : Formatting) : Nat :=
  match f with
  | .textSize _ _ _ => 0
  | .fontFace _ _ _ => 1
  | .color _ _ _ _ _ _ => 2
  | .bold _ _ => 3
  | .italic _ _ => 4
  | .underline _ _ => 5
  | .strikethrough _ _ => 6
  | _ => 0

/-- `len(FORMATTING_PRIORITIES)`. -/
def numPriorities : Nat := 7

/-- `HTML_TAG_MAPS` (only the four character styles). -/
def htmlTagMap (f : Formatting) : Option String :=
  match f with
  | .bold _ _ => some "b"
  | .italic _ _ => some "i"
  | .underline _ _ => some "u"
  | .strikethrough _ _ => some "s"
  | _ => none

/-- Membership in `HTML_TAG_MAPS.keys()` (the isinstance tuple check). -/
def isHtmlMapClass (f : Formatting) : Bool :=
  (htmlTagMap f).isSome

/-- Membership in `(Color, FontFace, TextSize)`. -/
def isFontClass (f : Formatting) : Bool :=
  match f with
  | .color _ _ _ _ _ _ => true
  | .fontFace _ _ _ => true
  | .textSize _ _ _ => true
  | _ => false

/-- Membership in `Position` (relative or absolute). -/
def isPositionFmt (f : Formatting) : Bool :=
  match f with
  | .relativePosition _ => true
  | .absolutePosition _ _ _ _ => true
  | _ => false

/-- `get_attributes` of the HTML-taggable formattings. -/
def getAttributes (f : Formatting) : String :=
  match f with
  | .color _ _ r g b _ => "color=\"" ++ colorToHex r g b ++ "\""
  | .fontFace _ _ fc => "face=\"" ++ fc ++ "\""
  | .textSize _ _ sz => "size=" ++ toString sz
  | _ => ""

/-- First `AbsolutePosition` in a cue (`get_formatting_by_type`). -/
def getAbsolutePosition (u : SubtitleUnit) :
    Option (Int × Int × Int × Int) :=
  u.formattings.findSome? fun f =>
    match f with
    | .absolutePosition a b c d => some (a, b, c, d)
    | _ => none

/-- First `RelativePosition` in a cue (`get_formatting_by_type`). -/
def getRelativePosition (u : SubtitleUnit) : Option PositionClassifier :=
  u.formattings.findSome? fun f =>
    match f with
    | .relativePosition n => some n
    | _ => none

/-- `_time_to_string`: `HH:MM:SS,mmm` with zero padding. -/
def timeToString (t : Time) : String :=
  let (h, m, s, ms) := t.humanTime
  padZeroes 2 h ++ ":" ++ padZeroes 2 m ++ ":" ++ padZeroes 2 s ++ "," ++
    padZeroes 3 ms

/-- `_construct_time_line`: the two timestamps, plus the absolute-position
coordinate block when the cue carries one. -/
def constructTimeLine (u : SubtitleUnit) : String :=
  let base := timeToString u.start ++ " --> " ++ timeToString u.stop
  match getAbsolutePosition u with
  | some (x1, x2, y1, y2) =>
    base ++ "  X1:" ++ padZeroes 3 x1 ++ " X2:" ++ padZeroes 3 x2 ++
      " Y1:" ++ padZeroes 3 y1 ++ " Y2:" ++ padZeroes 3 y2
  | none => base

/-- A pending tag insertion of `_construct_content_line` (the exporter's
`TagSpan` TypedDict). -/
structure TagIns where
  tag : String
  index : Int
  priority : Nat
  deriving DecidableEq, Repr

/-- Append `f` to the insertion-ordered `font_groups` entry for its span. -/
def fontGroupAdd (d : List ((Int × Int) × List Formatting))
    (k : Int × Int) (f : Formatting) : List ((Int × Int) × List Formatting) :=
  match d with
  | [] => [(k, [f])]
  | (k', fs) :: rest =>
    if k' = k then (k', fs ++ [f]) :: rest
    else (k', fs) :: fontGroupAdd rest k f

/-- `_construct_content_line`.  Note the faithful `isinstance` guard on the
character-style loop: it skips exactly the classes present in
`HTML_TAG_MAPS`, which are the only classes reaching that loop, so no
`<b>/<i>/<u>/<s>` insertion is ever recorded (the append below the guard is
dead code in the source). -/
def constructContentLine (u : SubtitleUnit) : String :=
  let fmts := u.formattings.filter fun f => !isPositionFmt f
  let fontFmts := fmts.filter isFontClass
  let otherFmts := fmts.filter fun f => !isFontClass f
  let fontGroups :=
    fontFmts.foldl
      (fun d f =>
        match f.span? with
        | some k => fontGroupAdd d k f
        | none => d)
      []
  let htmlTags1 : List TagIns :=
    otherFmts.foldl
      (fun acc f =>
        if isHtmlMapClass f then acc
        else
          match htmlTagMap f, f.span? with
          | some tg, some (s, e) =>
            acc ++
              [⟨"<" ++ tg ++ ">", s, formattingPriority f⟩,
                ⟨"</" ++ tg ++ ">", e, numPriorities - formattingPriority f⟩]
          | _, _ => acc)
      []
  let htmlTags2 : List TagIns :=
    fontGroups.foldl
      (fun acc kg =>
        let ((s, e), group) := kg
        let sortedGroup :=
          pySortBy (fun a b => strLt (getAttributes a) (getAttributes b)) group
        let startTag :=
          "<font" ++
            String.join (sortedGroup.map fun f => " " ++ getAttributes f) ++
            ">"
        acc ++ [⟨startTag, s, 0⟩, ⟨"</font>", e, numPriorities⟩])
      htmlTags1
  let sortedTags :=
    pySortBy
      (fun a b =>
        a.index < b.index || (a.index == b.index && a.priority < b.priority))
      htmlTags2
  let text1 :=
    sortedTags.reverse.foldl (fun t tag => spliceAt t tag.index tag.tag)
      u.text
  match getRelativePosition u with
  | some n => "\x7b\\an" ++ toString n ++ "\x7d" ++ text1
  | none => text1

/-- `SubRipExporter.to_string`: sort by start time, then emit
index/time/content/blank blocks joined by newlines. -/
def subRipExportToString (subtitle : Subtitle) : String :=
  let sorted :=
    pySortBy (fun a b => a.start.milliseconds < b.start.milliseconds) subtitle
  let lines :=
    (sorted.enum.map fun (i, u) =>
        [toString (i + 1), constructTimeLine u, constructContentLine u,
          ""]).flatten
  pyJoin "\n" lines

/-! ## MicroDVD parser (parsers/microdvd.py) -/

/-- Scan to the first closing brace (the non-greedy `(.*?)}`; `.` does not
match a newline), returning the group and the remaining input. -/
def scanToClose : List Char → Option (List Char × List Char)
  | [] => none
  | c :: rest =>
    if c = Char.ofNat 125 then some ([], rest)
    else if c = '\n' then none
    else (scanToClose rest).map fun (a, r) => (c :: a, r)

/-- Matching core of `SUB_REGEX` = `{(.*?)}{(.*?)}(.*)` after the leading
brace: extend the first group to each closing brace in turn (regex
backtracking) until the `{(.*?)}(.*)` continuation succeeds. -/
def subMatchFrom (acc : List Char) (cs : List Char) :
    Option (List Char × List Char × List Char) :=
  match cs with
  | [] => none
  | c :: rest =>
    if c = '\n' then none
    else if c = Char.ofNat 125 then
      match rest with
      | c2 :: rest2 =>
        if c2 = Char.ofNat 123 then
          match scanToClose rest2 with
          | some (b, rest3) =>
            some (acc.reverse, b, rest3.takeWhile (· ≠ '\n'))
          | none => subMatchFrom (c :: acc) rest
        else subMatchFrom (c :: acc) rest
      | [] => none
  else subMatchFrom (c :: acc) rest

/-- `re.match(SUB_REGEX, s)`: the `start`/`end`/`content` groups. -/
def subRegexMatch (s : String) : Option (String × String × String) :=
  match s.data with
  | c :: rest =>
    if c = Char.ofNat 123 then
      (subMatchFrom [] rest).map fun (a, b, cont) => (⟨a⟩, ⟨b⟩, ⟨cont⟩)
    else none
  | [] => none

/-- `CONTROL_CODE_REGEX.finditer`: every non-overlapping `{...}` group,
left to right. -/
def ccScan (fuel : Nat) (cs : List Char) : List String :=
  match fuel, cs with
  | 0, _ => []
  | _ + 1, [] => []
  | fuel + 1, c :: rest =>
    if c = Char.ofNat 123 then
      match scanToClose rest with
      | some (g, rest') => ⟨g⟩ :: ccScan fuel rest'
      | none => ccScan fuel rest
    else ccScan fuel rest

/-- All control codes of a line. -/
def controlCodesIn (line : String) : List String :=
  ccScan line.data.length line.data

/-- `formattings_from_control_codes` (the `c` code can raise a `ValueError`
from `Color.from_bgr_hex`; an unparsable `s` size is dropped). -/
def formattingsFromControlCodes (code value : String) (start stop : Int) :
    Except PyErr (List Formatting) :=
  let code := pyLower code
  if code = "y" then
    let vl := pyLower value
    .ok ((if strContains vl "i" then [Formatting.italic start stop] else []) ++
      (if strContains vl "b" then [Formatting.bold start stop] else []) ++
      (if strContains vl "u" then [Formatting.underline start stop] else []))
  else if code = "c" then
    match colorFromBgrHex start stop value with
    | some c => .ok [c]
    | none => .error .valueError
  else if code = "f" then .ok [.fontFace start stop value]
  else if code = "s" then
    match pyIntOfString value with
    | some n => .ok [.textSize start stop n]
    | none => .ok []
  else if code = "p" then
    .ok (if value = "0" then [.relativePosition topCenter] else [])
  else .ok []

/-- Per-line code dictionary keyed `(line, identifier)`. -/
abbrev PerLineDict := LineDict

/-- `itertools.accumulate` worker carrying the running sum. -/
def accSumsGo (acc : Nat) : List Nat → List Nat
  | [] => []
  | n :: rest => (acc + n) :: accSumsGo (acc + n) rest

/-- `itertools.accumulate` of `len(line) + 1` over the clean lines. -/
def accSums (ns : List Nat) : List Nat :=
  accSumsGo 0 ns

/-- One `{code:value}` token of line `i` in the `_parse_content` scan:
uppercase identifiers go to the cue-global dictionary, lowercase ones to
the per-line dictionary.  (The global dictionary starts from the stored
DEFAULT codes; their keys are lowercased by `_parse_default`, while line
scans add only uppercase global keys, so the aliasing of the default sets
in the source is unobservable.) -/
def contentCodeStep (i : Nat) (gp : SetDict × PerLineDict) (code : String) :
    SetDict × PerLineDict :=
  let (g, p) := gp
  let split := pySplitSep code ":"
  if split.length > 1 then
    let identifier := pyStrip (split.headD "")
    let value := pyStrip (split.getD 1 "")
    if pyIsUpper identifier then (setDictAdd g identifier value, p)
    else (g, lineDictAdd p (i, identifier) value)
  else (g, p)

/-- One enumerated line of the `_parse_content` scan. -/
def contentLineStep (acc : List String × SetDict × PerLineDict)
    (iline : Nat × String) : List String × SetDict × PerLineDict :=
  let (cls, g, p) := acc
  let (i, line) := iline
  let codes := controlCodesIn line
  let (g', p') := codes.foldl (contentCodeStep i) (g, p)
  let cleanLine :=
    codes.foldl
      (fun cl code => strReplace cl ("\x7b" ++ code ++ "\x7d") "") line
  (cls ++ [cleanLine], g', p')

/-- The full `_parse_content` scan over the enumerated lines. -/
def parseContentScan (defaults : SetDict) (lines : List String) :
    List String × SetDict × PerLineDict :=
  lines.enum.foldl contentLineStep ([], defaults, [])

/-- Append the formattings of one control-code value to an accumulator,
propagating a raised error. -/
def appendFFCC (code : String) (start stop : Int) (acc : List Formatting)
    (v : String) : Except PyErr (List Formatting) :=
  match formattingsFromControlCodes code v start stop with
  | .ok fs => .ok (acc ++ fs)
  | .error e => .error e

/-- One entry of the cue-global rendering loop of `_parse_content`: the
`Y` key emits a formatting per collected letter set value, other keys use
one (for a set built here, the only) value. -/
def globalEntryFormattings (code : String) (vals : List String)
    (start stop : Int) : Except PyErr (List Formatting) :=
  if code = "Y" then
    vals.foldlM (appendFFCC code start stop) []
  else formattingsFromControlCodes code (vals.headD "") start stop

/-- One step of the cue-global formatting fold of `_parse_content`. -/
def globalFold (rawLen : Int) (acc : List Formatting)
    (cv : String × List String) : Except PyErr (List Formatting) :=
  match globalEntryFormattings cv.1 cv.2 0 rawLen with
  | .ok fs => .ok (acc ++ fs)
  | .error e => .error e

/-- The span offsets of a per-line control code: prefix sums of
`len(line) + 1` locate the line's slice of the joined text. -/
def perLineSpan (lineAcc : List Nat) (lineIndex : Nat) : Int × Int :=
  if lineIndex = 0 then
    (0, (lineAcc.headD 0 : Int) - 1)
  else
    ((lineAcc.getD (lineIndex - 1) 0 : Int),
      (lineAcc.getD lineIndex 0 : Int) - 1)

/-- One step of the per-line formatting fold of `_parse_content`. -/
def perLineFold (lineAcc : List Nat) (acc : List Formatting)
    (kv : (Nat × String) × List String) : Except PyErr (List Formatting) :=
  match globalEntryFormattings kv.1.2 kv.2 (perLineSpan lineAcc kv.1.1).1
      (perLineSpan lineAcc kv.1.1).2 with
  | .ok fs => .ok (acc ++ fs)
  | .error e => .error e

/-- `MicroDVDParser._parse_content`: split on `|`, strip control codes,
rejoin with newlines, then emit cue-global spans over the whole text and
per-line spans over prefix-sum line ranges. -/
def parseContent (defaults : SetDict) (content : String) :
    Except PyErr (String × List Formatting) :=
  let lines := pySplitSep content "|"
  let (cleanLines, globalCodes, perLineCodes) := parseContentScan defaults lines
  let rawText := pyJoin "\n" cleanLines
  match globalCodes.foldlM (globalFold (rawText.length : Int)) [] with
  | .error e => .error e
  | .ok fmts1 =>
    let lineAcc := accSums (cleanLines.map fun l => l.length + 1)
    match perLineCodes.foldlM (perLineFold lineAcc) fmts1 with
    | .error e => .error e
    | .ok fmts2 => .ok (rawText, fmts2)

/-- The mutable state of `MicroDVDParser`.  `previous_unit` is always the
most recently appended cue, so the deferred-end hand-off is modelled as a
rewrite of the last list element; `previous_unit is not None` is
`units ≠ []`. -/
structure MDState where
  units : Subtitle
  fps : PyF
  isPrevEndEmpty : Bool
  defaultControlCodes : SetDict
  deriving DecidableEq, Repr

/-- Resolve the deferred end time of the previous cue. -/
def modifyLastStop (units : Subtitle) (t : Time) : Subtitle :=
  match units with
  | [] => []
  | [u] => [{ u with stop := t }]
  | u :: rest => u :: modifyLastStop rest t

/-- `end_frame = int(end_str) if end_str != "" else None` (the `int` call
can raise). -/
def endFrameOf (endStr : String) : Except PyErr (Option Int) :=
  if endStr = "" then .ok none
  else
    match pyIntOfString endStr with
    | some n => .ok (some n)
    | none => .error PyErr.valueError

/-- The start time of an emitted cue line. -/
def unitStartTime (st : MDState) (startStr : String) : Time :=
  Time.fromFrame ((pyIntOfString startStr).getD 0) st.fps

/-- The cue list after the deferred-end hand-off of `_parse_unit`. -/
def unitsAfterDefer (st : MDState) (start : Time) : Subtitle :=
  if st.isPrevEndEmpty ∧ !st.units.isEmpty then
    modifyLastStop st.units start
  else st.units

/-- The end time of an emitted cue line (`start + 8000` when deferred). -/
def unitStopTime (st : MDState) (start : Time) (endFrame? : Option Int) :
    Time :=
  match endFrame? with
  | some n => Time.fromFrame n st.fps
  | none => timeAdd start (.int 8000)

/-- The emitting branch of `_parse_unit` for a matched line with a numeric
start token. -/
def emitUnit (st : MDState) (startStr endStr content : String) :
    Except PyErr MDState :=
  let start := unitStartTime st startStr
  match endFrameOf endStr with
  | .error e => .error e
  | .ok endFrame? =>
    match parseContent st.defaultControlCodes content with
    | .error e => .error e
    | .ok (rawText, fmts) =>
      .ok { st with
              units := unitsAfterDefer st start ++
                [⟨start, unitStopTime st start endFrame?, rawText, fmts⟩]
              isPrevEndEmpty := endFrame?.isNone }

/-- `MicroDVDParser._parse_unit`. -/
def parseUnit (st : MDState) (unitStr : String) : Except PyErr MDState :=
  match subRegexMatch unitStr with
  | none => .ok st
  | some (startStr, endStr, content) =>
    if !pyIsNumeric startStr then .ok st
    else emitUnit st startStr endStr content

/-- Fold of `_parse_default` over one DEFAULT line's control codes. -/
def defaultCodesOf (content : String) (d : SetDict) : SetDict :=
  (controlCodesIn content).foldl
    (fun d code =>
      let parts := pySplitSep code ":"
      if parts.length ≤ 1 then d
      else
        let identifier := pyLower (pyStrip (parts.headD ""))
        let value := pyLower (pyStrip (parts.getD 1 ""))
        if identifier = "c" ∨ identifier = "f" ∨ identifier = "s" ∨
            identifier = "y" ∨ identifier = "p" then
          setDictAdd d identifier value
        else d)
    d

/-- `MicroDVDParser._parse_default`: scan for the first line containing
`{DEFAULT}` that regex-matches with start token `DEFAULT`, store its
(lowercased) codes, and stop. -/
def parseDefaultScan (lines : List String) (d : SetDict) : SetDict :=
  match lines with
  | [] => d
  | l :: rest =>
    if !strContains l "\x7bDEFAULT\x7d" then parseDefaultScan rest d
    else
      match subRegexMatch l with
      | none => parseDefaultScan rest d
      | some (startStr, _, content) =>
        if startStr ≠ "DEFAULT" then parseDefaultScan rest d
        else defaultCodesOf content d

/-- The frame-rate override: a first line whose start and end tokens agree
and whose content parses as a float overrides the constructor rate. -/
def fpsFromFirstLine (st0 : MDState) (line : String) : MDState :=
  match subRegexMatch line with
  | none => st0
  | some (s, e, c) =>
    if s = e then
      match pyFloatOfString c with
      | some v => { st0 with fps := v }
      | none => st0
    else st0

/-- `MicroDVDParser.parse_text` on a fresh parser with constructor frame
rate `fps0`, returning the final parser state.  With `fpsFromFile` the
first line is read unconditionally (`sub_lines[0]`, an `IndexError` on an
input without lines). -/
def microDVDRun (fps0 : PyF) (fpsFromFile : Bool) (subText : String) :
    Except PyErr MDState :=
  let lines := pyLines (stripBOM subText)
  let st0 : MDState := ⟨[], fps0, false, []⟩
  let st1E : Except PyErr MDState :=
    if fpsFromFile then
      match lines with
      | [] => .error PyErr.indexError
      | line :: _ => .ok (fpsFromFirstLine st0 line)
    else .ok st0
  match st1E with
  | .error e => .error e
  | .ok st1 =>
    let st2 := { st1 with
                  defaultControlCodes :=
                    parseDefaultScan lines st1.defaultControlCodes }
    lines.foldlM parseUnit st2

/-- `MicroDVDParser.parse_text`: the returned `Subtitle`. -/
def microDVDParseText (fps0 : PyF) (fpsFromFile : Bool) (subText : String) :
    Except PyErr Subtitle :=
  (microDVDRun fps0 fpsFromFile subText).map (·.units)

/-! ## MicroDVD exporter (exporters/microdvd.py) -/

/-- `CONTROL_CODE_MAPS` plus `get_control_code`: the code letter and the
rendered value (Strikethrough and AbsolutePosition have no entry). -/
def controlCodeOf (f : Formatting) : Option (String × String) :=
  match f with
  | .bold _ _ => some ("y", "b")
  | .italic _ _ => some ("y", "i")
  | .underline _ _ => some ("y", "u")
  | .color _ _ r g b _ => some ("c", colorToBgrHex r g b)
  | .fontFace _ _ fc => some ("f", fc)
  | .textSize _ _ sz => some ("s", toString sz)
  | .relativePosition n => some ("p", if n = topCenter then "0" else "1")
  | _ => none

/-- The classification loop of `MicroDVDExporter.to_string` for one cue:
non-position codes whose span does not cover the whole text are recorded
per overlapped line, others cue-globally. -/
def microDVDClassify (u : SubtitleUnit) : SetDict × LineDict :=
  u.formattings.foldl
    (fun (gp : SetDict × LineDict) f =>
      let (g, p) := gp
      match controlCodeOf f with
      | none => (g, p)
      | some (code, value) =>
        if code ≠ "p" then
          match f.span? with
          | some (s, e) =>
            if s > 0 ∨ e < u.characterCountWS then
              (g,
                (u.linesOfFormatting s e).foldl
                  (fun p li => lineDictAdd p (li, code) value) p)
            else (setDictAdd g code value, p)
          | none => (g, p)
        else (setDictAdd g code value, p))
    ([], [])

/-- The content portion rendered by `MicroDVDExporter.to_string` for one
cue: split into lines, prefix cue-global `{CODE:val}` tokens (uppercased,
`Y` values sorted and comma-joined) onto line 0 and per-line tokens
(lowercased) onto their lines, and rejoin with `|`. -/
def microDVDUnitContent (u : SubtitleUnit) : String :=
  let lines := pyLines u.text
  let (globalF, perLineF) := microDVDClassify u
  let lines1 :=
    globalF.foldl
      (fun ls (cv : String × List String) =>
        let (code, vals) := cv
        let val :=
          if pyUpper code = "Y" then pyJoin "," (pySortBy strLt vals)
          else vals.headD ""
        ls.modify
          (fun l => "\x7b" ++ pyUpper code ++ ":" ++ val ++ "\x7d" ++ l) 0)
      lines
  let lines2 :=
    perLineF.foldl
      (fun ls (kv : (Nat × String) × List String) =>
        let ((li, code), vals) := kv
        let val :=
          if pyLower code = "y" then pyJoin "," (pySortBy strLt vals)
          else vals.headD ""
        ls.modify
          (fun l => "\x7b" ++ pyLower code ++ ":" ++ val ++ "\x7d" ++ l) li)
      lines1
  pyJoin "|" lines2

/-- One full exported MicroDVD cue line `{start}{end}content`. -/
def microDVDUnitLine (fps : PyF) (u : SubtitleUnit) : String :=
  "\x7b" ++ toString (u.start.toFrame fps) ++ "\x7d\x7b" ++
    toString (u.stop.toFrame fps) ++ "\x7d" ++ microDVDUnitContent u

/-! ## Tag injection engine (exporters/html_injection.py) -/

/-- The formatting dataclasses usable as rule-table keys. -/
inductive FmtClass where
  | bold
  | italic
  | underline
  | strikethrough
  | color
  | fontFace
  | textSize
  deriving DecidableEq, Repr

/-- `formatting.__class__` of a span-scoped formatting. -/
def classOf : Formatting → Option FmtClass
  | .bold _ _ => some .bold
  | .italic _ _ => some .italic
  | .underline _ _ => some .underline
  | .strikethrough _ _ => some .strikethrough
  | .color _ _ _ _ _ _ => some .color
  | .fontFace _ _ _ => some .fontFace
  | .textSize _ _ _ => some .textSize
  | .relativePosition _ => none
  | .absolutePosition _ _ _ _ => none

/-- One value of the injector's rule table (the `HTMLRule` TypedDict; its
`attribute` field is named `attrName` here, `attribute` being a Lean
keyword). -/
structure HTMLRule where
  tag : String
  attrName : Option String
  deriving DecidableEq, Repr

/-- `self.rules.get(cls)`: dictionary lookup (a later duplicate key would
win, as in a Python dict built by assignment). -/
def rulesLookup (rules : List (FmtClass × HTMLRule)) (c : FmtClass) :
    Option HTMLRule :=
  (rules.reverse.find? fun kr => kr.1 = c).map (·.2)

/-- Assign into an insertion-ordered `tag ↦ index` dictionary. -/
def ordAssign (d : List (String × Nat)) (k : String) (v : Nat) :
    List (String × Nat) :=
  match d with
  | [] => [(k, v)]
  | (k', v') :: rest =>
    if k' = k then (k', v) :: rest
    else (k', v') :: ordAssign rest k v

/-- `self.ordering`: each rule tag mapped to its enumeration index. -/
def buildOrdering (rules : List (FmtClass × HTMLRule)) :
    List (String × Nat) :=
  rules.enum.foldl (fun d ir => ordAssign d ir.2.2.tag ir.1) []

/-- `self.ordering.get(tag, 0)`. -/
def orderingGet (d : List (String × Nat)) (tag : String) : Nat :=
  ((d.find? fun kv => kv.1 = tag).map (·.2)).getD 0

/-- The injector's span-keyed mark dictionary. -/
abbrev MarkDict := List ((Int × Int × String) × List String)

/-- Add an attribute string under a span/tag key (`set.add`). -/
def marksAdd (d : MarkDict) (k : Int × Int × String) (v : String) :
    MarkDict :=
  match d with
  | [] => [(k, [v])]
  | (k', vs) :: rest =>
    if k' = k then
      (k', if vs.contains v then vs else vs ++ [v]) :: rest
    else (k', vs) :: marksAdd rest k v

/-- `_get_formatting_value`. -/
def getFormattingValue : Formatting → Option String
  | .color _ _ r g b _ => some (colorToHex r g b)
  | .fontFace _ _ fc => some fc
  | .textSize _ _ sz => some (toString sz)
  | _ => none

/-- `_formatting_to_mark`: record the formatting's rendered attribute under
its `(start, end, tag)` key (a `None` value renders as the string `None`,
as a Python f-string does). -/
def formattingToMark (rules : List (FmtClass × HTMLRule)) (marks : MarkDict)
    (f : Formatting) : MarkDict :=
  match classOf f with
  | none => marks
  | some c =>
    match rulesLookup rules c with
    | none => marks
    | some rule =>
      match f.span? with
      | none => marks
      | some (s, e) =>
        let attrString :=
          match rule.attrName with
          | none => ""
          | some nm =>
            nm ++ "=\"" ++ ((getFormattingValue f).getD "None") ++ "\""
        marksAdd marks (s, e, rule.tag) attrString

/-- The open/close entry list of `inject`: for each registered mark, an
opening entry at `start` ranked by the tag's priority index and a closing
entry at `end` ranked by `len(ordering) − index` (attribute strings sorted
and space-joined into the opening tag). -/
def injectorTags (ordering : List (String × Nat)) (marks : MarkDict) :
    List (Int × Nat × String) :=
  marks.foldl
    (fun (acc : List (Int × Nat × String)) kv =>
      let ((s, e, tag), attrs) := kv
      let attrsString := pyJoin " " (pySortBy strLt attrs)
      let startTag :=
        "<" ++ tag ++ (if attrsString ≠ "" then " " ++ attrsString else "")
          ++ ">"
      let endTag := "</" ++ tag ++ ">"
      let si := orderingGet ordering tag
      let ei := ordering.length - si
      acc ++ [(s, si, startTag), (e, ei, endTag)])
    []

/-- `tags.sort(key=lambda x: (x[0], x[1]))`. -/
def injectorSorted (tags : List (Int × Nat × String)) :
    List (Int × Nat × String) :=
  pySortBy
    (fun (a b : Int × Nat × String) =>
      a.1 < b.1 || (a.1 == b.1 && a.2.1 < b.2.1))
    tags

/-- `HTMLInjector.inject` over a rule table, registered formattings and a
text: build open/close entries ranked by the tag priority table, sort by
`(offset, rank)`, and splice right to left. -/
def injectorInject (rules : List (FmtClass × HTMLRule))
    (fmts : List Formatting) (text : String) : String :=
  let sorted :=
    injectorSorted
      (injectorTags (buildOrdering rules)
        (fmts.foldl (formattingToMark rules) []))
  sorted.reverse.foldl (fun t ent => spliceAt t ent.1 ent.2.2) text

/-! ## Statement-level predicates -/

/-- A SubRip input line that cannot make the TIME state raise: either it
has no `-->`, or both timestamp halves parse and, when the uppercased end
half mentions `X`, the coordinate tokens parse too. -/
def timeLineSafe (rawLine : String) : Bool :=
  let line := pyStrip rawLine
  match pySplitOnce line "-->" with
  | none => true
  | some (a, b) =>
    (parseTimestamp a).isOk && (parseTimestamp b).isOk &&
      (if strContains (pyUpper b) "X" then
        (parseAbsolutePosition (pyUpper b)).isOk
      else true)

/-- A MicroDVD input line that `_parse_unit` turns into a cue: it matches
`SUB_REGEX` with a numeric start token. -/
def lineEmits (l : String) : Bool :=
  match subRegexMatch l with
  | some (s, _, _) => pyIsNumeric s
  | none => false

/-- The §3 span invariant against an explicit text length. -/
def spanBounded (f : Formatting) (n : Int) : Prop :=
  match Formatting.span? f with
  | some (s, e) => 0 ≤ s ∧ s ≤ e ∧ e ≤ n
  | none => True

/-- A still-open markup frame: nonnegative start at or before the cursor,
no end offset yet. -/
def stackFrameOk (pos : Int) (sp : TagSpan) : Prop :=
  0 ≤ sp.start ∧ sp.start ≤ pos ∧ sp.stop = none

/-- A collected markup frame: nonnegative start; a recorded end offset lies
between the start and the cursor. -/
def spanFrameOk (pos : Int) (sp : TagSpan) : Prop :=
  0 ≤ sp.start ∧ ∀ e, sp.stop = some e → sp.start ≤ e ∧ e ≤ pos

/-- The running invariant of the markup tag machine: the cursor equals the
length of the emitted text and every frame is bounded by it. -/
def htmlInv (st : HtmlState) : Prop :=
  st.position = ((concatAll st.textParts).length : Int) ∧
  (∀ sp ∈ st.stack, stackFrameOk st.position sp) ∧
  (∀ sp ∈ st.spans, spanFrameOk st.position sp)

/-- The running invariant of the SubRip state machine: the pending
formattings are cue-scoped positions and every stored cue satisfies the
span-bounds invariant. -/
def srInv (st : SubRipState) : Prop :=
  (∀ f ∈ st.formattings, Formatting.span? f = none) ∧
  (∀ u ∈ st.units, ∀ f ∈ u.formattings, spanOk f u.text = true)

/-! # Theorems -/

/-- Claim C9: the spec says every subtraction the `Time` type supports is
floored at zero, and `__sub__`'s own comment states "Time cannot be smaller
than 0 milliseconds" — but `__isub__` (`t -= v`) and `__rsub__` omit the
clamp, so `Time(0) -= 1` stores −1 milliseconds.  This evaluates the code
at that failing input (and shows `__sub__` itself does clamp). -/
theorem c9_isub_not_floored :
    timeISub ⟨0⟩ (.int 1) = ⟨-1⟩ ∧
    (timeISub ⟨0⟩ (.int 1)).milliseconds < 0 ∧
    timeRSub ⟨5⟩ (.int 0) = ⟨-5⟩ ∧
    timeSub ⟨0⟩ (.int 1) = ⟨0⟩ := by
  decide

/-- Claim C4 counterexample: feeding `<b>bold</x>` to the markup tag
machine does not produce a Bold span `(0, 4)` — the still-open `b` frame is
closed at the final offset 8, after the spliced `</x>` text. -/
theorem c4_counterexample :
    (htmlFeedClose (tokenizeHTML "<b>bold</x>")).2 ≠
      [Formatting.bold 0 4] := by
  decide

/-- Claim C4 as amended: `<b>bold</x>` yields plain text `bold</x>` and
exactly one formatting, a Bold span with start 0 and end 8 (the finalize
rule closes the open frame at the current offset, which lies after the
spliced unmatched end tag). -/
theorem c4_amended :
    htmlFeedClose (tokenizeHTML "<b>bold</x>") =
      ("bold</x>", [Formatting.bold 0 8]) := by
  decide

/-- Claim C1: round-tripping is broken for any file using the supported
character-style tags.  `_construct_content_line` filters the non-font,
non-position formattings and then `continue`s on exactly the classes of
`HTML_TAG_MAPS` — i.e. on every formatting reaching that loop — so no
`<b>/<i>/<u>/<s>` tag is ever re-inserted (the insertion code below the
guard is dead, and would raise a `KeyError` if it were reachable).  Parsing
the well-formed file `1 / 00:00:00,000 --> 00:00:01,000 / <b>Hello</b>` and
exporting yields a content line `Hello` without the bold tag, so the output
is not the original line-for-line. -/
theorem c1_roundtrip_fails_on_bold :
    (subRipParseText "1\n00:00:00,000 --> 00:00:01,000\n<b>Hello</b>").map
        subRipExportToString =
      .ok "1\n00:00:00,000 --> 00:00:01,000\nHello\n" ∧
    pyLines "1\n00:00:00,000 --> 00:00:01,000\nHello\n" ≠
      pyLines "1\n00:00:00,000 --> 00:00:01,000\n<b>Hello</b>" := by
  constructor
  · decide
  · decide

/-- Claim C5 counterexample: the cue `ab|cd` with Bold over the whole text
and Italic over `cd` is not rendered `{y:b}ab|{y:i}cd`: the cue-global Bold
code is rendered uppercase (`{Y:b}`). -/
theorem c5_counterexample :
    microDVDUnitContent
        ⟨⟨0⟩, ⟨1000⟩, "ab\ncd",
          [Formatting.bold 0 5, Formatting.italic 3 5]⟩ ≠
      "\x7by:b\x7dab|\x7by:i\x7dcd" := by
  decide

/-- Claim C5 as amended: the content portion renders as `{Y:b}ab|{y:i}cd` —
the whole-text Bold becomes an uppercase cue-global code on line 0, the
line-scoped Italic a lowercase per-line code on line 1. -/
theorem c5_amended :
    microDVDUnitContent
        ⟨⟨0⟩, ⟨1000⟩, "ab\ncd",
          [Formatting.bold 0 5, Formatting.italic 3 5]⟩ =
      "\x7bY:b\x7dab|\x7by:i\x7dcd" := by
  decide

/-- Claim C3 counterexample: the spec says no line ever raises, but the
input `1` followed by `bad --> time` reaches `_parse_timestamp` with the
half `bad `, whose `split(":", 2)` yields one part and the three-way unpack
raises `ValueError`, aborting `parse_text`. -/
theorem c3_counterexample :
    subRipParseText "1\nbad --> time" = .error .valueError := by
  decide

/-- Claim C6 counterexample: after the pseudo-cue `{DEFAULT}{}{f:Arial}`,
the following cue `{1}{2}hi` (which does not specify `f`) does not receive
`FontFace("Arial")`: `_parse_default` lowercases the stored value, so the
cue carries `FontFace("arial")` instead. -/
theorem c6_counterexample :
    microDVDParseText ⟨24, 1⟩ true "\x7bDEFAULT\x7d\x7b\x7d\x7bf:Arial\x7d\n\x7b1\x7d\x7b2\x7dhi" =
      .ok [⟨⟨41⟩, ⟨83⟩, "hi", [Formatting.fontFace 0 2 "arial"]⟩] ∧
    Formatting.fontFace 0 2 "Arial" ∉
      [Formatting.fontFace 0 2 "arial"] := by
  constructor
  · decide
  · decide

/-- Claim C7 counterexample: parsing the single line `{1}{1}25` with
`fps_from_file=True` and constructor default 24 overrides the frame rate to
25 as claimed, but the line is also emitted as a cue (the main loop runs
`_parse_unit` over every line, including the first), so the returned
`Subtitle` has one unit, not zero. -/
theorem c7_counterexample :
    (microDVDRun ⟨24, 1⟩ true "\x7b1\x7d\x7b1\x7d25").map
        (fun st => (st.fps, st.units.length)) =
      .ok (⟨25, 1⟩, 1) ∧
    ¬ (microDVDParseText ⟨24, 1⟩ true "\x7b1\x7d\x7b1\x7d25" = .ok []) := by
  constructor
  · decide
  · decide

/-- Claim C10: with `fps_from_file=True` (the default), `parse_text` reads
`sub_lines[0]` unconditionally, so an input with no lines raises
`IndexError` instead of returning an empty `Subtitle`. -/
theorem c10_no_lines_index_error (fps0 : PyF) (s : String)
    (h : pyLines (stripBOM s) = []) :
    microDVDParseText fps0 true s = .error .indexError := by
  simp only [microDVDParseText, microDVDRun, h]
  rfl

/-- Concrete instance of C10 at the empty string. -/
theorem c10_no_lines_index_error_witness :
    pyLines (stripBOM "") = [] ∧
    microDVDParseText ⟨24, 1⟩ true "" = .error .indexError :=
  ⟨by decide, c10_no_lines_index_error ⟨24, 1⟩ "" (by decide)⟩

/-- Sorting the four injection entries of C8: the offsets are pairwise
distinct, so the result does not depend on the rank components. -/
theorem injectorSorted_c8 (r1 r2 r3 r4 : Nat) (s1 s2 s3 s4 : String) :
    injectorSorted [(0, r1, s1), (10, r2, s2), (2, r3, s3), (8, r4, s4)] =
      [(0, r1, s1), (2, r3, s3), (8, r4, s4), (10, r2, s2)] := by
  simp [injectorSorted, pySortBy, insertStable]

/-- The right-to-left splice only reads each entry's offset and tag text,
never its rank. -/
theorem spliceFoldMap (l : List (Int × Nat × String)) (text : String) :
    l.foldl (fun t ent => spliceAt t ent.1 ent.2.2) text =
      (l.map fun e => (e.1, e.2.2)).foldl
        (fun t p => spliceAt t p.1 p.2) text := by
  induction l generalizing text with
  | nil => rfl
  | cons x xs ih => simp [List.foldl, List.map, ih]

/-- Claim C8: for any rule table mapping Bold to tag `b` and Italic to tag
`i` (both with no attribute), `HTMLInjector.inject` applied to `0123456789`
with registered spans Bold(0,10) and Italic(2,8) returns
`<b>01<i>234567</i>89</b>`: the four insertion offsets are pairwise
distinct, so the rank table never decides a comparison, and the
right-to-left splice yields properly nested output. -/
theorem c8_inject_nesting (rules : List (FmtClass × HTMLRule))
    (hb : rulesLookup rules .bold = some ⟨"b", none⟩)
    (hi : rulesLookup rules .italic = some ⟨"i", none⟩) :
    injectorInject rules [Formatting.bold 0 10, Formatting.italic 2 8]
        "0123456789" =
      "<b>01<i>234567</i>89</b>" := by
  have hmarks : [Formatting.bold 0 10, Formatting.italic 2 8].foldl
      (formattingToMark rules) [] =
      [((0, 10, "b"), [""]), ((2, 8, "i"), [""])] := by
    simp [List.foldl, formattingToMark, classOf, hb, hi, Formatting.span?,
      marksAdd]
  have htags : injectorTags (buildOrdering rules)
      [((0, 10, "b"), [""]), ((2, 8, "i"), [""])] =
      [(0, orderingGet (buildOrdering rules) "b", "<b>"),
        (10, (buildOrdering rules).length -
          orderingGet (buildOrdering rules) "b", "</b>"),
        (2, orderingGet (buildOrdering rules) "i", "<i>"),
        (8, (buildOrdering rules).length -
          orderingGet (buildOrdering rules) "i", "</i>")] := rfl
  simp only [injectorInject, hmarks, htags, injectorSorted_c8]
  rw [spliceFoldMap]
  simp only [List.map_reverse, List.map]
  rfl

/-- An `Except` with `isOk` holds a value. -/
theorem exceptIsOkExists {α : Type} {e : Except PyErr α}
    (h : e.isOk = true) : ∃ v, e = .ok v := by
  cases e with
  | ok v => exact ⟨v, rfl⟩
  | error er => simp [Except.isOk, Except.toBool] at h

/-- A safe line can never make `subRipStepLine` raise. -/
theorem subRipStepLine_safe (st : SubRipState) (l : String)
    (h : timeLineSafe l = true) :
    (subRipStepLine st l).isOk = true := by
  cases hst : st.state with
  | index =>
    simp only [subRipStepLine, hst]
    rfl
  | content =>
    simp only [subRipStepLine, hst]
    rfl
  | time =>
    simp only [timeLineSafe] at h
    cases hsplit : pySplitOnce (pyStrip l) "-->" with
    | none =>
      simp only [subRipStepLine, hst, onTimeState, hsplit]
      rfl
    | some ab =>
      obtain ⟨a, b⟩ := ab
      rw [hsplit] at h
      simp only [Bool.and_eq_true] at h
      obtain ⟨⟨ha, hb⟩, hx⟩ := h
      obtain ⟨t1, ht1⟩ := exceptIsOkExists ha
      obtain ⟨t2, ht2⟩ := exceptIsOkExists hb
      by_cases hc : strContains (pyUpper b) "X" = true
      · rw [if_pos hc] at hx
        obtain ⟨ap, hap⟩ := exceptIsOkExists hx
        cases ap with
        | none =>
          simp only [subRipStepLine, hst, onTimeState, hsplit, ht1, ht2, hc,
            hap]
          rfl
        | some apv =>
          simp only [subRipStepLine, hst, onTimeState, hsplit, ht1, ht2, hc,
            hap]
          rfl
      · simp only [Bool.not_eq_true] at hc
        simp only [subRipStepLine, hst, onTimeState, hsplit, ht1, ht2, hc]
        rfl

/-- Folding safe lines never raises. -/
theorem subRipRunLines_safe (lines : List String) :
    ∀ st : SubRipState, (∀ l ∈ lines, timeLineSafe l = true) →
      ∃ st', subRipRunLines st lines = .ok st' := by
  induction lines with
  | nil => intro st _; exact ⟨st, rfl⟩
  | cons l ls ih =>
    intro st hsafe
    obtain ⟨st1, hst1⟩ := exceptIsOkExists
      (subRipStepLine_safe st l (hsafe l (List.mem_cons_self l ls)))
    obtain ⟨st2, hst2⟩ :=
      ih st1 (fun x hx => hsafe x (List.mem_cons_of_mem l hx))
    refine ⟨st2, ?_⟩
    show subRipRunLines st (l :: ls) = Except.ok st2
    rw [show subRipRunLines st (l :: ls) =
        (subRipStepLine st l >>= fun st' => subRipRunLines st' ls) from rfl,
      hst1]
    exact hst2

/-- Claim C3 as amended: `SubRipParser.parse_text` returns a `Subtitle`
without raising on every input whose lines containing `-->` carry two
well-formed timestamp halves and well-formed coordinate tokens; malformed
index and content lines merely degrade to leftover text.  (As stated the
claim is false: a TIME-state line such as `bad --> time` raises
`ValueError`, see the counterexample.) -/
theorem c3_amended (input : String)
    (hsafe : ∀ l ∈ pyLines (stripBOM input), timeLineSafe l = true) :
    (subRipParseText input).isOk = true := by
  obtain ⟨st, hst⟩ := subRipRunLines_safe (pyLines (stripBOM input))
    subRipInit hsafe
  simp only [subRipParseText, hst]
  rfl

/-- Concrete instance of the amended C3 at a well-formed file. -/
theorem c3_amended_witness :
    (subRipParseText "1\n00:00:00,000 --> 00:00:01,000\nHi").isOk = true :=
  c3_amended "1\n00:00:00,000 --> 00:00:01,000\nHi" (by decide)

/-- Inversion of a successful `Except` bind. -/
theorem exceptBindOk {α β : Type} {e : Except PyErr α}
    {f : α → Except PyErr β} {r : β} (h : (e >>= f) = .ok r) :
    ∃ m, e = .ok m ∧ f m = .ok r := by
  cases e with
  | ok v => exact ⟨v, rfl, h⟩
  | error er => simp [Bind.bind, Except.bind] at h

/-- A whitespace character is not a decimal digit. -/
theorem pyIsSpace_not_digit {c : Char} (h : pyIsSpace c = true) :
    c.isDigit = false := by
  simp only [pyIsSpace, Bool.or_eq_true, decide_eq_true_eq] at h
  rcases h with ((((h | h) | h) | h) | h) | h <;> subst h <;> decide

/-- Stripping leaves an all-digit character list unchanged. -/
theorem pyStripList_digits {cs : List Char}
    (h : ∀ c ∈ cs, c.isDigit = true) : pyStripList cs = cs := by
  have hdw : ∀ ds : List Char, (∀ c ∈ ds, c.isDigit = true) →
      ds.dropWhile pyIsSpace = ds := by
    intro ds hds
    cases ds with
    | nil => rfl
    | cons d ds' =>
      have : pyIsSpace d = false := by
        cases hsp : pyIsSpace d with
        | false => rfl
        | true =>
          have := pyIsSpace_not_digit hsp
          rw [hds d (List.mem_cons_self d ds')] at this
          exact absurd this (by simp)
      simp [List.dropWhile, this]
  unfold pyStripList
  rw [hdw cs h, hdw cs.reverse (fun c hc => h c (List.mem_reverse.mp hc)),
    List.reverse_reverse]

/-- A numeric token converts with `int()`. -/
theorem pyIsNumeric_int {s : String} (h : pyIsNumeric s = true) :
    ∃ n : Nat, pyIntOfString s = some (n : Int) := by
  simp only [pyIsNumeric, Bool.and_eq_true, decide_eq_true_eq,
    List.all_eq_true] at h
  obtain ⟨hne, hdig⟩ := h
  have hstrip : pyStripList s.data = s.data := pyStripList_digits hdig
  have hnil : s.data ≠ [] := by
    intro hd
    exact hne (by cases s; simp_all)
  unfold pyIntOfString
  rw [hstrip]
  cases hsd : s.data with
  | nil => exact absurd hsd hnil
  | cons c rest =>
    have hcdig : c.isDigit = true := hdig c (by rw [hsd]; simp)
    have hcm : c ≠ '-' := by
      intro he; rw [he] at hcdig; exact absurd hcdig (by decide)
    have hcp : c ≠ '+' := by
      intro he; rw [he] at hcdig; exact absurd hcdig (by decide)
    have hall : (c :: rest).all Char.isDigit = true := by
      simp only [List.all_eq_true]
      intro x hx
      exact hdig x (by rw [hsd]; exact hx)
    refine ⟨digitsToNat (c :: rest), ?_⟩
    simp [if_neg hcm, if_neg hcp, hall]

/-- `modifyLastStop` keeps the list length. -/
theorem modifyLastStop_length (l : Subtitle) (t : Time) :
    (modifyLastStop l t).length = l.length := by
  induction l with
  | nil => rfl
  | cons u rest ih =>
    cases rest with
    | nil => rfl
    | cons v rest' => simpa [modifyLastStop] using ih

/-- `modifyLastStop` keeps the head of a list with at least two elements. -/
theorem modifyLastStop_head {l : Subtitle} (t : Time)
    (h : 2 ≤ l.length) : (modifyLastStop l t).head? = l.head? := by
  cases l with
  | nil => rfl
  | cons u rest =>
    cases rest with
    | nil => simp at h
    | cons v rest' => simp [modifyLastStop]

/-- Every element of `modifyLastStop l t` has the text and formattings of
an element of `l` (only an end time is rewritten). -/
theorem modifyLastStop_mem {l : Subtitle} {t : Time} {u : SubtitleUnit}
    (h : u ∈ modifyLastStop l t) :
    ∃ u' ∈ l, u.text = u'.text ∧ u.formattings = u'.formattings := by
  induction l generalizing u with
  | nil => simp [modifyLastStop] at h
  | cons v rest ih =>
    cases rest with
    | nil =>
      simp only [modifyLastStop, List.mem_singleton] at h
      exact ⟨v, by simp, by rw [h], by rw [h]⟩
    | cons w rest' =>
      simp only [modifyLastStop, List.mem_cons] at h
      rcases h with h | h
      · exact ⟨v, by simp [h], by rw [h], by rw [h]⟩
      · obtain ⟨u', hu', ht, hf⟩ := ih h
        exact ⟨u', List.mem_cons_of_mem v hu', ht, hf⟩

/-- Inversion of a successful `emitUnit`. -/
theorem emitUnit_inv {st st' : MDState} {startStr endStr content : String}
    (h : emitUnit st startStr endStr content = .ok st') :
    ∃ endFrame? rawText fmts,
      endFrameOf endStr = .ok endFrame? ∧
      parseContent st.defaultControlCodes content = .ok (rawText, fmts) ∧
      st' = { st with
              units := unitsAfterDefer st (unitStartTime st startStr) ++
                [⟨unitStartTime st startStr,
                  unitStopTime st (unitStartTime st startStr) endFrame?,
                  rawText, fmts⟩]
              isPrevEndEmpty := endFrame?.isNone } := by
  unfold emitUnit at h
  cases hef : endFrameOf endStr with
  | error e => rw [hef] at h; simp at h
  | ok ef =>
    rw [hef] at h
    cases hpc : parseContent st.defaultControlCodes content with
    | error e => rw [hpc] at h; simp at h
    | ok rf =>
      obtain ⟨raw, fmts⟩ := rf
      rw [hpc] at h
      simp only [Except.ok.injEq] at h
      exact ⟨ef, raw, fmts, rfl, rfl, h.symm⟩

/-- `parseUnit` never changes the frame rate or the stored defaults. -/
theorem parseUnit_fps_defaults {st st' : MDState} {l : String}
    (h : parseUnit st l = .ok st') :
    st'.fps = st.fps ∧ st'.defaultControlCodes = st.defaultControlCodes := by
  unfold parseUnit at h
  split at h
  · cases h; exact ⟨rfl, rfl⟩
  · split at h
    · cases h; exact ⟨rfl, rfl⟩
    · obtain ⟨ef, raw, fmts, _, _, hst⟩ := emitUnit_inv h
      subst hst
      exact ⟨rfl, rfl⟩

/-- The C7 head-cue invariant is preserved by `parseUnit`: the frame rate,
the first emitted cue, and the fact that a pending deferred end can only
target a later cue. -/
theorem parseUnit_headInv {st st' : MDState} {l : String}
    {u0 : SubtitleUnit}
    (hh : st.units.head? = some u0)
    (hfl : st.isPrevEndEmpty = true → 2 ≤ st.units.length)
    (h : parseUnit st l = .ok st') :
    st'.units.head? = some u0 ∧
      (st'.isPrevEndEmpty = true → 2 ≤ st'.units.length) := by
  have h1 : 1 ≤ st.units.length := by
    cases hu : st.units with
    | nil => rw [hu] at hh; simp at hh
    | cons a b => simp [hu]
  have hdefer : ∀ t : Time, (unitsAfterDefer st t).head? = some u0 ∧
      (unitsAfterDefer st t).length = st.units.length := by
    intro t
    unfold unitsAfterDefer
    split
    next hc =>
      rw [modifyLastStop_head t (hfl hc.1), modifyLastStop_length]
      exact ⟨hh, rfl⟩
    next => exact ⟨hh, rfl⟩
  unfold parseUnit at h
  split at h
  · cases h; exact ⟨hh, hfl⟩
  · split at h
    · cases h; exact ⟨hh, hfl⟩
    · obtain ⟨ef, raw, fmts, _, _, hst⟩ := emitUnit_inv h
      subst hst
      obtain ⟨hdh, hdl⟩ := hdefer (unitStartTime st _)
      constructor
      · simp only [List.head?_append]
        rw [hdh]
        rfl
      · intro _
        simp only [List.length_append, hdl, List.length_cons,
          List.length_nil]
        omega

/-- Folding `parseUnit` preserves the C7 head-cue invariant. -/
theorem foldParseUnit_headInv (lines : List String) :
    ∀ (st st' : MDState) (u0 : SubtitleUnit),
      st.units.head? = some u0 →
      (st.isPrevEndEmpty = true → 2 ≤ st.units.length) →
      lines.foldlM parseUnit st = .ok st' →
      st'.units.head? = some u0 ∧ st'.fps = st.fps := by
  induction lines with
  | nil =>
    intro st st' u0 hh _ hfold
    simp only [List.foldlM, pure, Except.pure, Except.ok.injEq] at hfold
    subst hfold
    exact ⟨hh, rfl⟩
  | cons l ls ih =>
    intro st st' u0 hh hfl hfold
    simp only [List.foldlM] at hfold
    obtain ⟨st1, hst1, hrest⟩ := exceptBindOk hfold
    obtain ⟨hh1, hfl1⟩ := parseUnit_headInv hh hfl hst1
    obtain ⟨hfps1, _⟩ := parseUnit_fps_defaults hst1
    obtain ⟨hh2, hfps2⟩ := ih st1 st' u0 hh1 hfl1 hrest
    exact ⟨hh2, by rw [hfps2, hfps1]⟩

/-- Claim C7 as amended: with `fps_from_file=True`, a first line whose
start and end tokens agree and whose content parses as a float sets the
document frame rate, overriding the constructor default — but when the
start token is numeric the line is also emitted as a cue (with equal start
and end times, so exporters drop it later); it is not absent from the
returned `Subtitle`. -/
theorem c7_amended (fps0 : PyF) (input line : String) (rest : List String)
    (s c : String) (v : PyF) (st : MDState)
    (hlines : pyLines (stripBOM input) = line :: rest)
    (hmatch : subRegexMatch line = some (s, s, c))
    (hfloat : pyFloatOfString c = some v)
    (hnum : pyIsNumeric s = true)
    (hok : microDVDRun fps0 true input = .ok st) :
    st.fps = v ∧ ∃ u, st.units.head? = some u ∧ u.start = u.stop := by
  simp only [microDVDRun, hlines, fpsFromFirstLine, hmatch, hfloat,
    eq_self_iff_true, if_true] at hok
  rw [List.foldlM_cons] at hok
  obtain ⟨st3, hst3, hrest⟩ := exceptBindOk hok
  unfold parseUnit at hst3
  rw [hmatch] at hst3
  simp only [hnum, Bool.not_true, Bool.false_eq_true, if_false] at hst3
  obtain ⟨ef, raw, fmts, hef, _, hstEq⟩ := emitUnit_inv hst3
  obtain ⟨n, hn⟩ := pyIsNumeric_int hnum
  have hsne : ¬(s = "") := by
    simp only [pyIsNumeric, Bool.and_eq_true, decide_eq_true_eq] at hnum
    exact hnum.1
  have hefn : endFrameOf s = .ok (some (n : Int)) := by
    unfold endFrameOf
    rw [if_neg hsne, hn]
  rw [hefn] at hef
  cases hef
  subst hstEq
  obtain ⟨hhead, hfps⟩ := foldParseUnit_headInv rest _ st
    ⟨unitStartTime ⟨[], v, false, parseDefaultScan (line :: rest) []⟩ s,
      unitStopTime ⟨[], v, false, parseDefaultScan (line :: rest) []⟩
        (unitStartTime ⟨[], v, false, parseDefaultScan (line :: rest) []⟩ s)
        (some (n : Int)),
      raw, fmts⟩
    (by rfl) (by intro hcontra; simp at hcontra) hrest
  refine ⟨?_, ?_⟩
  · rw [hfps]
  · refine ⟨_, hhead, ?_⟩
    simp only [unitStartTime, unitStopTime, hn, Option.getD_some]

/-- Concrete instance of the amended C7 at a two-line file. -/
theorem c7_amended_witness :
    MDState.fps
        ⟨[⟨⟨40⟩, ⟨40⟩, "25", []⟩, ⟨⟨400⟩, ⟨800⟩, "hi", []⟩], ⟨25, 1⟩,
          false, []⟩ = ⟨25, 1⟩ ∧
    ∃ u,
      (MDState.units
          ⟨[⟨⟨40⟩, ⟨40⟩, "25", []⟩, ⟨⟨400⟩, ⟨800⟩, "hi", []⟩], ⟨25, 1⟩,
            false, []⟩).head? = some u ∧ u.start = u.stop :=
  c7_amended ⟨24, 1⟩ "\x7b1\x7d\x7b1\x7d25\n\x7b10\x7d\x7b20\x7dhi"
    "\x7b1\x7d\x7b1\x7d25" ["\x7b10\x7d\x7b20\x7dhi"] "1" "25" ⟨25, 1⟩
    ⟨[⟨⟨40⟩, ⟨40⟩, "25", []⟩, ⟨⟨400⟩, ⟨800⟩, "hi", []⟩], ⟨25, 1⟩, false, []⟩
    (by decide) (by decide) (by decide) (by decide) (by decide)

/-- A dictionary add under a different key keeps the head entry. -/
theorem setDictAdd_cons_ne (k' : String) (vs : List String) (d : SetDict)
    (k v : String) (hne : k' ≠ k) :
    setDictAdd ((k', vs) :: d) k v = (k', vs) :: setDictAdd d k v := by
  simp only [setDictAdd]
  rw [if_neg hne]

/-- An uppercase identifier is not the lowercase key `f`. -/
theorem pyIsUpper_ne_f {k : String} (h : pyIsUpper k = true) : k ≠ "f" := by
  intro he
  rw [he] at h
  exact absurd h (by decide)

/-- One content-scan code step keeps a leading `f` entry of the global
dictionary (only uppercase identifiers are added globally). -/
theorem contentCodeStep_head (i : Nat) (gp : SetDict × PerLineDict)
    (code : String) (vs : List String) (grest : SetDict)
    (hg : gp.1 = ("f", vs) :: grest) :
    ∃ grest', (contentCodeStep i gp code).1 = ("f", vs) :: grest' := by
  obtain ⟨g, p⟩ := gp
  simp only at hg
  subst hg
  simp only [contentCodeStep]
  by_cases hlen : (pySplitSep code ":").length > 1
  · rw [if_pos hlen]
    by_cases hup :
        pyIsUpper (pyStrip ((pySplitSep code ":").headD "")) = true
    · rw [if_pos hup]
      exact ⟨_, by
        rw [setDictAdd_cons_ne "f" vs grest _ _
          (Ne.symm (pyIsUpper_ne_f hup))]⟩
    · rw [if_neg hup]
      exact ⟨grest, rfl⟩
  · rw [if_neg hlen]
    exact ⟨grest, rfl⟩

/-- Folding code steps keeps a leading `f` entry. -/
theorem codesFold_head (codes : List String) (i : Nat) :
    ∀ (gp : SetDict × PerLineDict) (vs : List String) (grest : SetDict),
      gp.1 = ("f", vs) :: grest →
      ∃ grest',
        (codes.foldl (contentCodeStep i) gp).1 = ("f", vs) :: grest' := by
  induction codes with
  | nil => intro gp vs grest hg; exact ⟨grest, hg⟩
  | cons c cs ih =>
    intro gp vs grest hg
    obtain ⟨g1, hg1⟩ := contentCodeStep_head i gp c vs grest hg
    exact ih (contentCodeStep i gp c) vs g1 hg1

/-- One content-scan line step keeps a leading `f` entry. -/
theorem contentLineStep_head (acc : List String × SetDict × PerLineDict)
    (q : Nat × String) (vs : List String) (grest : SetDict)
    (hg : acc.2.1 = ("f", vs) :: grest) :
    ∃ grest', (contentLineStep acc q).2.1 = ("f", vs) :: grest' := by
  obtain ⟨cls, g, p⟩ := acc
  obtain ⟨i, line⟩ := q
  simp only at hg
  obtain ⟨g1, hg1⟩ :=
    codesFold_head (controlCodesIn line) i (g, p) vs grest hg
  exact ⟨g1, hg1⟩

/-- The whole content scan keeps a leading `f` entry of the globals. -/
theorem scanFold_head (ps : List (Nat × String)) :
    ∀ (acc : List String × SetDict × PerLineDict) (vs : List String)
      (grest : SetDict),
      acc.2.1 = ("f", vs) :: grest →
      ∃ grest',
        (ps.foldl contentLineStep acc).2.1 = ("f", vs) :: grest' := by
  induction ps with
  | nil => intro acc vs grest hg; exact ⟨grest, hg⟩
  | cons q qs ih =>
    intro acc vs grest hg
    obtain ⟨g1, hg1⟩ := contentLineStep_head acc q vs grest hg
    exact ih (contentLineStep acc q) vs g1 hg1

/-- Folding an append-style `Except` step preserves membership in the
accumulator. -/
theorem foldlM_append_mono {β : Type}
    (F : List Formatting → β → Except PyErr (List Formatting))
    (hF : ∀ a e out, F a e = .ok out → ∀ x ∈ a, x ∈ out) :
    ∀ (l : List β) (a : List Formatting) out,
      List.foldlM F a l = .ok out → ∀ x ∈ a, x ∈ out := by
  intro l
  induction l with
  | nil =>
    intro a out h x hx
    simp only [List.foldlM] at h
    cases h
    exact hx
  | cons e es ih =>
    intro a out h x hx
    rw [List.foldlM_cons] at h
    obtain ⟨m, hm, hrest⟩ := exceptBindOk h
    exact ih m out hrest x (hF a e m hm x hx)

/-- `globalFold` only appends. -/
theorem globalFold_mono (L : Int) :
    ∀ a e out, globalFold L a e = .ok out → ∀ x ∈ a, x ∈ out := by
  intro a e out h x hx
  unfold globalFold at h
  cases hge : globalEntryFormattings e.1 e.2 0 L with
  | error er => rw [hge] at h; simp at h
  | ok fs =>
    rw [hge] at h
    cases h
    exact List.mem_append_left _ hx

/-- `perLineFold` only appends. -/
theorem perLineFold_mono (lineAcc : List Nat) :
    ∀ a e out, perLineFold lineAcc a e = .ok out → ∀ x ∈ a, x ∈ out := by
  intro a e out h x hx
  unfold perLineFold at h
  cases hge : globalEntryFormattings e.1.2 e.2 (perLineSpan lineAcc e.1.1).1
      (perLineSpan lineAcc e.1.1).2 with
  | error er => rw [hge] at h; simp at h
  | ok fs =>
    rw [hge] at h
    cases h
    exact List.mem_append_left _ hx

/-- With the stored DEFAULT codes `f ↦ {arial}`, every successful
`_parse_content` emits a full-text `FontFace("arial")` span. -/
theorem parseContent_arial {content raw : String} {fmts : List Formatting}
    (h : parseContent [("f", ["arial"])] content = .ok (raw, fmts)) :
    Formatting.fontFace 0 (raw.length : Int) "arial" ∈ fmts := by
  simp only [parseContent, parseContentScan] at h
  obtain ⟨grest, hg⟩ := scanFold_head (pySplitSep content "|").enum
    ([], [("f", ["arial"])], []) ["arial"] [] rfl
  cases hscan : (pySplitSep content "|").enum.foldl contentLineStep
      ([], [("f", ["arial"])], []) with
  | mk cls rest2 =>
    obtain ⟨gc, plc⟩ := rest2
    rw [hscan] at h hg
    simp only at h hg
    subst hg
    have hval : ∀ L : Int,
        globalEntryFormattings "f" ["arial"] 0 L =
          .ok [Formatting.fontFace 0 L "arial"] := fun L => rfl
    cases hfold : (((("f", ["arial"]) : String × List String)) :: grest).foldlM
        (globalFold ((pyJoin "\n" cls).length : Int)) [] with
    | error e => rw [hfold] at h; simp at h
    | ok fmts1 =>
      rw [hfold] at h
      dsimp only at h
      have hff : Formatting.fontFace 0 ((pyJoin "\n" cls).length : Int) "arial"
          ∈ fmts1 := by
        rw [List.foldlM_cons] at hfold
        obtain ⟨m, hm, hrest⟩ := exceptBindOk hfold
        have hm' : m =
            [Formatting.fontFace 0 ((pyJoin "\n" cls).length : Int)
              "arial"] := by
          unfold globalFold at hm
          simp only [hval, List.nil_append, Except.ok.injEq] at hm
          exact hm.symm
        subst hm'
        exact foldlM_append_mono (globalFold ((pyJoin "\n" cls).length : Int))
          (globalFold_mono _) grest _ fmts1 hrest _ (by simp)
      cases hfold2 : plc.foldlM
          (perLineFold (accSums (cls.map fun l => l.length + 1))) fmts1 with
      | error e => rw [hfold2] at h; simp at h
      | ok fmts2 =>
        rw [hfold2] at h
        simp only [Except.ok.injEq, Prod.mk.injEq] at h
        obtain ⟨hr, hf⟩ := h
        rw [← hf, ← hr]
        exact foldlM_append_mono _ (perLineFold_mono _) _ _ _ hfold2 _ hff

/-- The deferred-end hand-off never changes texts or formattings. -/
theorem unitsAfterDefer_mem {st : MDState} {t : Time} {u : SubtitleUnit}
    (h : u ∈ unitsAfterDefer st t) :
    ∃ u' ∈ st.units, u.text = u'.text ∧ u.formattings = u'.formattings := by
  unfold unitsAfterDefer at h
  split at h
  · exact modifyLastStop_mem h
  · exact ⟨u, h, rfl, rfl⟩

/-- The deferred-end hand-off keeps the cue count. -/
theorem unitsAfterDefer_length (st : MDState) (t : Time) :
    (unitsAfterDefer st t).length = st.units.length := by
  unfold unitsAfterDefer
  split
  · exact modifyLastStop_length _ _
  · rfl

/-- One `parseUnit` step under the stored `f ↦ {arial}` default: the
full-text `FontFace("arial")` membership is preserved on old cues and holds
on the new cue, and exactly the emitting lines add a cue. -/
theorem parseUnit_c6 {st st' : MDState} {l : String}
    (hd : st.defaultControlCodes = [("f", ["arial"])])
    (hall : ∀ u ∈ st.units,
      Formatting.fontFace 0 (u.text.length : Int) "arial" ∈ u.formattings)
    (h : parseUnit st l = .ok st') :
    (∀ u ∈ st'.units,
      Formatting.fontFace 0 (u.text.length : Int) "arial" ∈ u.formattings) ∧
    st'.units.length =
      st.units.length + (if lineEmits l then 1 else 0) := by
  unfold parseUnit at h
  unfold lineEmits
  cases hm : subRegexMatch l with
  | none =>
    rw [hm] at h
    cases h
    exact ⟨hall, by simp⟩
  | some sec =>
    obtain ⟨s, e, c⟩ := sec
    rw [hm] at h
    cases hnum : pyIsNumeric s with
    | false =>
      simp only [hnum, Bool.not_false, if_true] at h
      cases h
      refine ⟨hall, ?_⟩
      simp [hnum]
    | true =>
      simp only [hnum, Bool.not_true, Bool.false_eq_true, if_false] at h
      obtain ⟨ef, raw, fmts, hef, hpc, hstEq⟩ := emitUnit_inv h
      subst hstEq
      rw [hd] at hpc
      have hmem := parseContent_arial hpc
      constructor
      · intro u hu
        simp only [List.mem_append, List.mem_singleton] at hu
        rcases hu with hu | hu
        · obtain ⟨u', hu', ht, hf⟩ := unitsAfterDefer_mem hu
          rw [ht, hf]
          exact hall u' hu'
        · subst hu
          exact hmem
      · simp only [List.length_append, unitsAfterDefer_length,
          List.length_cons, List.length_nil]
        simp [hnum]

/-- Folding `parseUnit` under the stored `f ↦ {arial}` default. -/
theorem foldParseUnit_c6 (lines : List String) :
    ∀ (st st' : MDState),
      st.defaultControlCodes = [("f", ["arial"])] →
      (∀ u ∈ st.units,
        Formatting.fontFace 0 (u.text.length : Int) "arial" ∈
          u.formattings) →
      lines.foldlM parseUnit st = .ok st' →
      (∀ u ∈ st'.units,
        Formatting.fontFace 0 (u.text.length : Int) "arial" ∈
          u.formattings) ∧
      st'.units.length = st.units.length + lines.countP lineEmits := by
  induction lines with
  | nil =>
    intro st st' _ hall h
    simp only [List.foldlM] at h
    cases h
    exact ⟨hall, by simp⟩
  | cons l ls ih =>
    intro st st' hd hall h
    rw [List.foldlM_cons] at h
    obtain ⟨st1, h1, hrest⟩ := exceptBindOk h
    obtain ⟨hall1, hlen1⟩ := parseUnit_c6 hd hall h1
    obtain ⟨_, hd1⟩ := parseUnit_fps_defaults h1
    obtain ⟨hall2, hlen2⟩ := ih st1 st' (by rw [hd1, hd]) hall1 hrest
    refine ⟨hall2, ?_⟩
    rw [hlen2, hlen1, List.countP_cons]
    cases hle : lineEmits l
    · simp [hle]
    · simp [hle]
      omega

/-- The frame-rate override touches only the `fps` field. -/
theorem fpsFromFirstLine_fields (st0 : MDState) (l : String) :
    (fpsFromFirstLine st0 l).units = st0.units ∧
    (fpsFromFirstLine st0 l).defaultControlCodes =
      st0.defaultControlCodes := by
  unfold fpsFromFirstLine
  split
  · exact ⟨rfl, rfl⟩
  · split
    · split
      · exact ⟨rfl, rfl⟩
      · exact ⟨rfl, rfl⟩
    · exact ⟨rfl, rfl⟩

/-- Claim C6 as amended: when the document's DEFAULT pseudo-cue stores the
codes `f ↦ {arial}` (as `{DEFAULT}{}{f:Arial}` does — `_parse_default`
lowercases the value), the DEFAULT line itself produces no cue (only lines
matching `SUB_REGEX` with a numeric start token do), and every cue of the
returned `Subtitle` — before or after the DEFAULT line, with or without its
own `f`/`F` codes — carries a full-text `FontFace("arial")` formatting. -/
theorem c6_amended (fps0 : PyF) (input : String) (res : Subtitle)
    (hdef : parseDefaultScan (pyLines (stripBOM input)) [] =
      [("f", ["arial"])])
    (hok : microDVDParseText fps0 true input = .ok res) :
    (∀ u ∈ res,
      Formatting.fontFace 0 (u.text.length : Int) "arial" ∈
        u.formattings) ∧
    res.length = (pyLines (stripBOM input)).countP lineEmits := by
  unfold microDVDParseText at hok
  cases hrun : microDVDRun fps0 true input with
  | error e => rw [hrun] at hok; simp [Except.map] at hok
  | ok st =>
    rw [hrun] at hok
    simp only [Except.map, Except.ok.injEq] at hok
    subst hok
    cases hl : pyLines (stripBOM input) with
    | nil =>
      rw [hl] at hdef
      simp [parseDefaultScan] at hdef
    | cons line rest =>
      rw [hl] at hdef
      simp only [microDVDRun, hl, if_true] at hrun
      obtain ⟨hu0, hd0⟩ :=
        fpsFromFirstLine_fields ⟨[], fps0, false, []⟩ line
      obtain ⟨hall, hlen⟩ := foldParseUnit_c6 (line :: rest) _ st
        (by simp only [hd0]; exact hdef)
        (by
          intro u hu
          simp only [hu0] at hu
          simp at hu)
        hrun
      refine ⟨hall, ?_⟩
      rw [hlen]
      simp only [hu0, hl]
      simp

/-- Concrete instance of the amended C6 at a two-line file. -/
theorem c6_amended_witness :
    (∀ u ∈ [(⟨⟨41⟩, ⟨83⟩, "hi",
        [Formatting.fontFace 0 2 "arial"]⟩ : SubtitleUnit)],
      Formatting.fontFace 0 (u.text.length : Int) "arial" ∈
        u.formattings) ∧
    ([(⟨⟨41⟩, ⟨83⟩, "hi",
        [Formatting.fontFace 0 2 "arial"]⟩ : SubtitleUnit)] :
        Subtitle).length =
      (pyLines (stripBOM
        "\x7bDEFAULT\x7d\x7b\x7d\x7bf:Arial\x7d\n\x7b1\x7d\x7b2\x7dhi")).countP
        lineEmits :=
  c6_amended ⟨24, 1⟩
    "\x7bDEFAULT\x7d\x7b\x7d\x7bf:Arial\x7d\n\x7b1\x7d\x7b2\x7dhi"
    [⟨⟨41⟩, ⟨83⟩, "hi", [Formatting.fontFace 0 2 "arial"]⟩]
    (by decide) (by decide)

/-- Concrete instance of C8 at the two-rule table. -/
theorem c8_inject_nesting_witness :
    rulesLookup [(FmtClass.bold, ⟨"b", none⟩), (FmtClass.italic, ⟨"i", none⟩)]
        .bold = some ⟨"b", none⟩ ∧
    rulesLookup [(FmtClass.bold, ⟨"b", none⟩), (FmtClass.italic, ⟨"i", none⟩)]
        .italic = some ⟨"i", none⟩ ∧
    injectorInject
        [(FmtClass.bold, ⟨"b", none⟩), (FmtClass.italic, ⟨"i", none⟩)]
        [Formatting.bold 0 10, Formatting.italic 2 8] "0123456789" =
      "<b>01<i>234567</i>89</b>" :=
  ⟨by decide, by decide,
    c8_inject_nesting _ (by decide) (by decide)⟩

/-- `"".join` length is the sum of the part lengths. -/
theorem concatAll_length (xs : List String) :
    (concatAll xs).length = (xs.map String.length).sum := by
  induction xs with
  | nil => rfl
  | cons x rest ih =>
    simp only [concatAll, List.map_cons, List.sum_cons, String.length_append,
      ih]

/-- A span-scoped formatting is `spanOk` iff its offsets are bounded by the
text length. -/
theorem spanOk_iff_bounded (f : Formatting) (text : String) :
    spanOk f text = true ↔ spanBounded f ((text.length : Nat) : Int) := by
  cases f <;>
    simp [spanOk, spanBounded, Formatting.span?, and_assoc]

/-- A cue-scoped position is `spanOk` against any text. -/
theorem spanOk_of_none {f : Formatting} (t : String)
    (h : Formatting.span? f = none) : spanOk f t = true := by
  simp [spanOk, h]

/-- Bounded offsets make a span-scoped formatting `spanOk`. -/
theorem spanOk_of_span {f : Formatting} {s e : Int} (t : String)
    (h : Formatting.span? f = some (s, e)) (h1 : 0 ≤ s) (h2 : s ≤ e)
    (h3 : e ≤ (t.length : Int)) : spanOk f t = true := by
  simp only [spanOk, h]
  simp [h1, h2, h3]

/-- A popped frame came from the stack, and the rest of the stack is kept. -/
theorem popLastMatching_mem (tag : String) :
    ∀ {l l' : List TagSpan} {sp : TagSpan},
      popLastMatching tag l = some (l', sp) →
      sp ∈ l ∧ ∀ x ∈ l', x ∈ l := by
  intro l
  induction l with
  | nil => intro l' sp h; simp [popLastMatching] at h
  | cons y ys ih =>
    intro l' sp h
    simp only [popLastMatching] at h
    cases hrec : popLastMatching tag ys with
    | some pr =>
      obtain ⟨ys', sp'⟩ := pr
      rw [hrec] at h
      simp only [Option.some.injEq, Prod.mk.injEq] at h
      obtain ⟨hl', hsp⟩ := h
      obtain ⟨hmem, hsub⟩ := ih hrec
      subst hl'
      subst hsp
      refine ⟨List.mem_cons_of_mem _ hmem, ?_⟩
      intro x hx
      rcases List.mem_cons.mp hx with hx | hx
      · exact hx ▸ List.mem_cons_self _ _
      · exact List.mem_cons_of_mem _ (hsub x hx)
    | none =>
      rw [hrec] at h
      by_cases htag : y.tag = tag
      · rw [if_pos htag] at h
        simp only [Option.some.injEq, Prod.mk.injEq] at h
        obtain ⟨hl', hsp⟩ := h
        subst hl'
        subst hsp
        exact ⟨List.mem_cons_self _ _, fun x hx => List.mem_cons_of_mem _ hx⟩
      · rw [if_neg htag] at h
        simp at h

/-- Frame invariants survive a cursor advance. -/
theorem stackFrameOk_mono {p q : Int} (hpq : p ≤ q) {sp : TagSpan}
    (h : stackFrameOk p sp) : stackFrameOk q sp :=
  ⟨h.1, le_trans h.2.1 hpq, h.2.2⟩

/-- Span-frame invariants survive a cursor advance. -/
theorem spanFrameOk_mono {p q : Int} (hpq : p ≤ q) {sp : TagSpan}
    (h : spanFrameOk p sp) : spanFrameOk q sp :=
  ⟨h.1, fun e he => ⟨(h.2 e he).1, le_trans (h.2 e he).2 hpq⟩⟩

/-- Every tokenizer event preserves the markup machine invariant. -/
theorem htmlStep_inv {st : HtmlState} (e : HtmlEvent) (h : htmlInv st) :
    htmlInv (htmlStep st e) := by
  obtain ⟨hpos, hstack, hspans⟩ := h
  have hpos0 : 0 ≤ st.position := by
    rw [hpos]; exact Int.ofNat_nonneg _
  cases e with
  | startTag tag attrs =>
    refine ⟨hpos, ?_, hspans⟩
    intro sp hsp
    simp only [htmlStep, handleStartTag, List.mem_append,
      List.mem_singleton] at hsp
    rcases hsp with hsp | hsp
    · exact hstack sp hsp
    · subst hsp
      exact ⟨hpos0, le_refl _, rfl⟩
  | endTag tag =>
    cases hpop : popLastMatching tag st.stack with
    | some pr =>
      obtain ⟨stack', sp0⟩ := pr
      obtain ⟨hmem, hsub⟩ := popLastMatching_mem tag hpop
      have hred : htmlStep st (.endTag tag) =
          { st with
              stack := stack'
              spans := st.spans ++ [{ sp0 with stop := some st.position }] } := by
        simp only [htmlStep, handleEndTag, hpop]
      rw [hred]
      refine ⟨hpos, ?_, ?_⟩
      · intro sp hsp
        exact hstack sp (hsub sp hsp)
      · intro sp hsp
        rcases List.mem_append.mp hsp with hsp | hsp
        · exact hspans sp hsp
        · rw [List.mem_singleton] at hsp
          subst hsp
          obtain ⟨h1, h2, _⟩ := hstack sp0 hmem
          refine ⟨h1, ?_⟩
          intro e' he'
          simp only [Option.some.injEq] at he'
          subst he'
          exact ⟨h2, le_refl _⟩
    | none =>
      have hred : htmlStep st (.endTag tag) =
          { st with
              position := st.position + (("</" ++ tag ++ ">").length : Int)
              textParts := st.textParts ++ ["</" ++ tag ++ ">"] } := by
        simp only [htmlStep, handleEndTag, hpop]
      rw [hred]
      have hL : st.position ≤
          st.position + (("</" ++ tag ++ ">").length : Int) :=
        le_add_of_nonneg_right (Int.ofNat_nonneg _)
      refine ⟨?_, ?_, ?_⟩
      · show st.position + (("</" ++ tag ++ ">").length : Int) =
          ((concatAll (st.textParts ++ ["</" ++ tag ++ ">"])).length : Int)
        rw [hpos, concatAll_length, concatAll_length]
        simp only [List.map_append, List.sum_append, List.map_cons,
          List.map_nil, List.sum_cons, List.sum_nil]
        push_cast
        ring
      · intro sp hsp
        exact stackFrameOk_mono hL (hstack sp hsp)
      · intro sp hsp
        exact spanFrameOk_mono hL (hspans sp hsp)
  | data s =>
    refine ⟨?_, ?_, ?_⟩
    · show st.position + (s.length : Int) =
        ((concatAll (st.textParts ++ [s])).length : Int)
      rw [hpos, concatAll_length, concatAll_length]
      simp only [List.map_append, List.sum_append, List.map_cons,
        List.map_nil, List.sum_cons, List.sum_nil]
      push_cast
      ring
    · intro sp hsp
      exact stackFrameOk_mono (le_add_of_nonneg_right (Int.ofNat_nonneg _))
        (hstack sp hsp)
    · intro sp hsp
      exact spanFrameOk_mono (le_add_of_nonneg_right (Int.ofNat_nonneg _))
        (hspans sp hsp)

/-- The fresh markup machine satisfies the invariant. -/
theorem htmlInit_inv : htmlInv htmlInit := by
  refine ⟨rfl, ?_, ?_⟩ <;> intro sp hsp <;>
    exact absurd hsp (List.not_mem_nil sp)

/-- The invariant holds after any event sequence. -/
theorem htmlRun_inv (evs : List HtmlEvent) : htmlInv (htmlRun evs) := by
  have gen : ∀ (l : List HtmlEvent) (st : HtmlState), htmlInv st →
      htmlInv (l.foldl htmlStep st) := by
    intro l
    induction l with
    | nil => intro st h; exact h
    | cons e es ih =>
      intro st h
      rw [List.foldl_cons]
      exact ih (htmlStep st e) (htmlStep_inv e h)
  exact gen evs htmlInit htmlInit_inv

/-- Splicing always grows the text by exactly the inserted length (slice
indices are clamped). -/
theorem spliceAt_length (s : String) (i : Int) (ins : String) :
    (spliceAt s i ins).length = s.length + ins.length := by
  show (sliceClamp s.data 0 i ++ ins.data ++
      sliceClamp s.data i (s.data.length : Int)).length =
    s.data.length + ins.data.length
  simp only [sliceClamp, sliceIndex, List.length_append, List.length_take,
    List.length_drop]
  split_ifs <;> omega

/-- The index shift of `close()` preserves boundedness, raising the bound
by the inserted length. -/
theorem shiftFormatting_bounded {pos L n : Int} (hL : 0 ≤ L)
    {f : Formatting} (h : spanBounded f n) :
    spanBounded (shiftFormatting pos L f) (n + L) := by
  cases f <;>
    simp only [shiftFormatting, spanBounded, Formatting.span?] at h ⊢ <;>
    try trivial
  all_goals split_ifs <;>
    simp only [spanBounded, Formatting.span?] <;> omega

/-- One invalid-tag splice of `close()` preserves the span invariant. -/
theorem invalidTagSplice_spanOk {p : String × List Formatting}
    (pt : Int × String) (h : ∀ f ∈ p.2, spanOk f p.1 = true) :
    ∀ f ∈ (invalidTagSplice p pt).2,
      spanOk f (invalidTagSplice p pt).1 = true := by
  intro f hf
  dsimp only [invalidTagSplice] at hf ⊢
  obtain ⟨f0, hf0, rfl⟩ := List.mem_map.mp hf
  have hb := (spanOk_iff_bounded f0 p.1).mp (h f0 hf0)
  have hb2 := @shiftFormatting_bounded pt.1 (pt.2.length : Int)
    ((p.1.length : Nat) : Int) (Int.ofNat_nonneg pt.2.length) f0 hb
  rw [spanOk_iff_bounded]
  rw [show ((spliceAt p.1 pt.1 pt.2).length : Int) =
      ((p.1.length : Nat) : Int) + (pt.2.length : Int) by
    rw [spliceAt_length]; push_cast; ring]
  exact hb2

/-- The whole invalid-tag splice loop preserves the span invariant. -/
theorem spliceFold_spanOk (pts : List (Int × String)) :
    ∀ (p : String × List Formatting),
      (∀ f ∈ p.2, spanOk f p.1 = true) →
      ∀ f ∈ (pts.foldl invalidTagSplice p).2,
        spanOk f (pts.foldl invalidTagSplice p).1 = true := by
  induction pts with
  | nil => intro p h; simpa using h
  | cons pt rest ih =>
    intro p h
    rw [List.foldl_cons]
    exact ih (invalidTagSplice p pt) (invalidTagSplice_spanOk pt h)

/-- `Color.from_hex` spans the requested offsets. -/
theorem colorFromHex_span {s e : Int} {v : String} {f : Formatting}
    (h : colorFromHex s e v = some f) :
    Formatting.span? f = some (s, e) := by
  unfold colorFromHex at h
  cases hht : hexTriple (strReplace v "#" "") with
  | none => rw [hht] at h; simp at h
  | some t =>
    obtain ⟨r, g, b⟩ := t
    rw [hht] at h
    injection h with h
    subst h
    rfl

/-- `Color.from_bgr_hex` spans the requested offsets. -/
theorem colorFromBgrHex_span {s e : Int} {v : String} {f : Formatting}
    (h : colorFromBgrHex s e v = some f) :
    Formatting.span? f = some (s, e) := by
  unfold colorFromBgrHex at h
  cases hht : hexTriple (strReplace v "$" "") with
  | none => rw [hht] at h; simp at h
  | some t =>
    obtain ⟨b, g, r⟩ := t
    rw [hht] at h
    injection h with h
    subst h
    rfl

/-- `Color.from_string` spans the requested offsets. -/
theorem colorFromString_span {s e : Int} {v : String} {f : Formatting}
    (h : colorFromString s e v = some f) :
    Formatting.span? f = some (s, e) := by
  simp only [colorFromString] at h
  cases hch : colorFromHex s e (pyLower (pyStrip v)) with
  | some c =>
    rw [hch] at h
    simp only [Option.some.injEq] at h
    subst h
    exact colorFromHex_span hch
  | none =>
    rw [hch] at h
    simp [supportedColorLookup] at h

/-- Every formatting from a `font` attribute spans the frame offsets. -/
theorem fontAttrStep_span {s e : Int} {acc : List Formatting}
    (kv : String × Option String)
    (h : ∀ f ∈ acc, Formatting.span? f = some (s, e)) :
    ∀ f ∈ fontAttrStep s e acc kv, Formatting.span? f = some (s, e) := by
  intro f hf
  unfold fontAttrStep at hf
  cases hv : kv.2 with
  | none => rw [hv] at hf; exact h f hf
  | some v =>
    rw [hv] at hf
    dsimp only at hf
    by_cases hv0 : v = ""
    · rw [if_pos hv0] at hf; exact h f hf
    · rw [if_neg hv0] at hf
      by_cases hc : pyLower kv.1 = "color"
      · rw [if_pos hc] at hf
        cases hcs : colorFromString s e v with
        | none => rw [hcs] at hf; exact h f hf
        | some c =>
          rw [hcs] at hf
          rcases List.mem_append.mp hf with hf | hf
          · exact h f hf
          · rw [List.mem_singleton] at hf
            subst hf
            exact colorFromString_span hcs
      · rw [if_neg hc] at hf
        by_cases hface : pyLower kv.1 = "face"
        · rw [if_pos hface] at hf
          rcases List.mem_append.mp hf with hf | hf
          · exact h f hf
          · rw [List.mem_singleton] at hf; subst hf; rfl
        · rw [if_neg hface] at hf
          by_cases hsize : pyLower kv.1 = "size"
          · rw [if_pos hsize] at hf
            cases hn : pyIntOfString v with
            | none => rw [hn] at hf; exact h f hf
            | some n =>
              rw [hn] at hf
              rcases List.mem_append.mp hf with hf | hf
              · exact h f hf
              · rw [List.mem_singleton] at hf; subst hf; rfl
          · rw [if_neg hsize] at hf
            exact h f hf

/-- `_init_valid_formatting` produces only spans over the frame offsets. -/
theorem initValidFormatting_span (tag : String)
    (attrs : List (String × Option String)) (s e : Int) :
    ∀ f ∈ initValidFormatting tag attrs s e,
      Formatting.span? f = some (s, e) := by
  unfold initValidFormatting
  split_ifs with h1 h2 h3 h4 h5
  · have gen : ∀ (l : List (String × Option String)) (acc : List Formatting),
        (∀ f ∈ acc, Formatting.span? f = some (s, e)) →
        ∀ f ∈ l.foldl (fontAttrStep s e) acc,
          Formatting.span? f = some (s, e) := by
      intro l
      induction l with
      | nil => intro acc h; exact h
      | cons kv rest ih =>
        intro acc h
        rw [List.foldl_cons]
        exact ih (fontAttrStep s e acc kv) (fontAttrStep_span kv h)
    exact gen attrs [] (by intro f hf; exact absurd hf (List.not_mem_nil f))
  all_goals intro f hf
  all_goals try (rw [List.mem_singleton] at hf; subst hf; rfl)
  exact absurd hf (List.not_mem_nil f)

/-- The span partition of `close()` keeps every formatting bounded by the
cursor. -/
theorem closePartition_span (pos : Int) (spans : List TagSpan)
    (hsp : ∀ sp ∈ spans, spanFrameOk pos sp) :
    ∀ f ∈ (closePartition spans).1, spanBounded f pos := by
  have gen : ∀ (l : List TagSpan) (acc : List Formatting × List (Int × String)),
      (∀ sp ∈ l, spanFrameOk pos sp) →
      (∀ f ∈ acc.1, spanBounded f pos) →
      ∀ f ∈ (l.foldl closeStep acc).1, spanBounded f pos := by
    intro l
    induction l with
    | nil => intro acc _ hacc; exact hacc
    | cons sp rest ih =>
      intro acc hl hacc
      rw [List.foldl_cons]
      refine ih (closeStep acc sp) (fun x hx => hl x (List.mem_cons_of_mem _ hx)) ?_
      intro f hf
      obtain ⟨hs0, hse⟩ := hl sp (List.mem_cons_self _ _)
      unfold closeStep at hf
      cases hstop : sp.stop with
      | none => rw [hstop] at hf; exact hacc f hf
      | some e =>
        rw [hstop] at hf
        rcases List.mem_append.mp hf with hf | hf
        · exact hacc f hf
        · obtain ⟨h1, h2⟩ := hse e hstop
          have := initValidFormatting_span sp.tag sp.attributes sp.start e f hf
          unfold spanBounded
          rw [this]
          exact ⟨hs0, h1, h2⟩
  exact gen spans ([], []) hsp (by intro f hf; exact absurd hf (List.not_mem_nil f))

/-- `close()` returns only formattings satisfying the §3 span invariant
against the returned text. -/
theorem htmlClose_spanOk {st : HtmlState} (h : htmlInv st) :
    ∀ f ∈ (htmlClose st).2, spanOk f (htmlClose st).1 = true := by
  obtain ⟨hpos, hstack, hspans⟩ := h
  have hunfold : htmlClose st =
      (pySortBy (fun a b => posTagLt b a)
          (closePartition (st.spans ++
            st.stack.map fun sp =>
              if validHtmlTag sp.tag then { sp with stop := some st.position }
              else sp)).2).foldl invalidTagSplice
        (concatAll st.textParts,
          (closePartition (st.spans ++
            st.stack.map fun sp =>
              if validHtmlTag sp.tag then { sp with stop := some st.position }
              else sp)).1) := rfl
  rw [hunfold]
  apply spliceFold_spanOk
  intro f hf
  have hall : ∀ sp ∈ (st.spans ++
      st.stack.map fun sp =>
        if validHtmlTag sp.tag then { sp with stop := some st.position }
        else sp), spanFrameOk st.position sp := by
    intro sp hsp
    rcases List.mem_append.mp hsp with hsp | hsp
    · exact hspans sp hsp
    · obtain ⟨sp0, hsp0, rfl⟩ := List.mem_map.mp hsp
      obtain ⟨h1, h2, h3⟩ := hstack sp0 hsp0
      by_cases hv : validHtmlTag sp0.tag
      · rw [if_pos hv]
        refine ⟨h1, ?_⟩
        intro e he
        simp only [Option.some.injEq] at he
        subst he
        exact ⟨h2, le_refl _⟩
      · rw [if_neg hv]
        refine ⟨h1, ?_⟩
        intro e he
        rw [h3] at he
        exact absurd he (by simp)
  have hb := closePartition_span st.position _ hall f hf
  rw [spanOk_iff_bounded, ← hpos]
  exact hb

/-- Feeding any event list and closing yields only invariant-satisfying
formattings: the heart of claim C2 for the markup machine. -/
theorem htmlFeedClose_spanOk (evs : List HtmlEvent) :
    ∀ f ∈ (htmlFeedClose evs).2, spanOk f (htmlFeedClose evs).1 = true := by
  unfold htmlFeedClose
  exact htmlClose_spanOk (htmlRun_inv evs)

/-- Lazily deduplicated extension only draws from the two source lists. -/
theorem dedupExtend_mem {f : Formatting} {base new : List Formatting}
    (h : f ∈ dedupExtend base new) : f ∈ base ∨ f ∈ new := by
  have gen : ∀ (l acc : List Formatting),
      f ∈ l.foldl
        (fun acc f =>
          if formattingAlreadyExists acc f then acc else acc ++ [f]) acc →
      f ∈ acc ∨ f ∈ l := by
    intro l
    induction l with
    | nil => intro acc hf; exact Or.inl hf
    | cons g gs ih =>
      intro acc hf
      rw [List.foldl_cons] at hf
      rcases ih _ hf with hf | hf
      · by_cases hex : formattingAlreadyExists acc g
        · rw [if_pos hex] at hf
          exact Or.inl hf
        · rw [if_neg hex] at hf
          rcases List.mem_append.mp hf with hf | hf
          · exact Or.inl hf
          · rw [List.mem_singleton] at hf
            exact Or.inr (hf ▸ List.mem_cons_self _ _)
      · exact Or.inr (List.mem_cons_of_mem _ hf)
  exact (gen new base h).imp id (fun hf =>
    match h : hf with | hf => hf)

/-- `_parse_unit_text` emits only formattings satisfying the span invariant
against the text it returns, provided the inherited formattings are
cue-scoped positions. -/
theorem parseUnitText_spanOk {fmts0 : List Formatting} {text0 : String}
    (h0 : ∀ f ∈ fmts0, Formatting.span? f = none) :
    ∀ f ∈ (parseUnitText fmts0 text0).2,
      spanOk f (parseUnitText fmts0 text0).1 = true := by
  intro f hf
  cases hssa : ssaFeed (pyStrip text0) with
  | mk ssaText relPos? =>
  cases hhtml : htmlFeedClose (tokenizeHTML ssaText) with
  | mk htmlText htmlFmts =>
  have hOk := htmlFeedClose_spanOk (tokenizeHTML ssaText)
  rw [hhtml] at hOk
  simp only [parseUnitText, hssa, hhtml] at hf ⊢
  have h1 : ∀ g ∈ (match relPos? with
      | some n =>
        let rp := Formatting.relativePosition n
        if formattingAlreadyExists fmts0 rp then fmts0
        else fmts0 ++ [rp]
      | none => fmts0), Formatting.span? g = none := by
    cases relPos? with
    | none => exact h0
    | some n =>
      dsimp only
      split
      · exact h0
      · intro g hg
        rcases List.mem_append.mp hg with hg | hg
        · exact h0 g hg
        · rw [List.mem_singleton] at hg
          subst hg
          rfl
  rcases dedupExtend_mem hf with hb | hn
  · exact spanOk_of_none _ (h1 f hb)
  · exact hOk f hn

/-- `_store_unit` preserves the SubRip invariant. -/
theorem storeUnit_inv {st : SubRipState} (h : srInv st) :
    srInv (storeUnit st) := by
  obtain ⟨hfmt, hunits⟩ := h
  cases hp : parseUnitText st.formattings (st.rawText ++ st.tempText) with
  | mk text fmts =>
  have hOk := @parseUnitText_spanOk st.formattings
    (st.rawText ++ st.tempText) hfmt
  rw [hp] at hOk
  constructor
  · intro f hf
    simp only [storeUnit, hp] at hf
    exact absurd hf (List.not_mem_nil f)
  · intro u hu f hf
    simp only [storeUnit, hp] at hu
    cases hst : st.startTime with
    | none =>
      rw [hst] at hu
      cases het : st.endTime with
      | none =>
        rw [het] at hu
        dsimp only at hu
        exact hunits u hu f hf
      | some e =>
        rw [het] at hu
        dsimp only at hu
        exact hunits u hu f hf
    | some s =>
      rw [hst] at hu
      cases het : st.endTime with
      | none =>
        rw [het] at hu
        dsimp only at hu
        exact hunits u hu f hf
      | some e =>
        rw [het] at hu
        dsimp only at hu
        rcases List.mem_append.mp hu with hu' | hu'
        · exact hunits u hu' f hf
        · rw [List.mem_singleton] at hu'
          subst hu'
          exact hOk f hf

/-- `_on_index_state` preserves the SubRip invariant. -/
theorem onIndexState_inv {st : SubRipState} (line : String)
    (h : srInv st) : srInv (onIndexState st line) := by
  unfold onIndexState
  cases pyIntOfString line with
  | none => exact h
  | some n =>
    dsimp only
    have h' : srInv { st with state := SRState3.time } := h
    cases ({ st with state := SRState3.time } : SubRipState).startTime with
    | none => exact h'
    | some s =>
      cases ({ st with state := SRState3.time } : SubRipState).endTime with
      | none => exact h'
      | some e => exact storeUnit_inv h'

/-- A position produced by `_parse_absolute_position` is cue-scoped. -/
theorem parseAbsolutePosition_pos {line : String} {ap : Formatting}
    (h : parseAbsolutePosition line = .ok (some ap)) :
    Formatting.span? ap = none := by
  unfold parseAbsolutePosition at h
  cases hfold : absPosFold (pySplitWS line) none none none none with
  | error e => rw [hfold] at h; simp at h
  | ok t =>
    obtain ⟨x1, x2, y1, y2⟩ := t
    rw [hfold] at h
    cases x1 <;> cases x2 <;> cases y1 <;> cases y2 <;>
      simp only [Except.ok.injEq, Option.some.injEq, reduceCtorEq] at h
    subst h
    rfl

/-- `_on_time_state` preserves the SubRip invariant. -/
theorem onTimeState_inv {st st' : SubRipState} {line : String}
    (h : onTimeState st line = .ok st') (hinv : srInv st) : srInv st' := by
  unfold onTimeState at h
  cases hsplit : pySplitOnce line "-->" with
  | none =>
    rw [hsplit] at h
    cases h
    exact hinv
  | some pr =>
    obtain ⟨startTs, endTs⟩ := pr
    rw [hsplit] at h
    dsimp only at h
    cases ht1 : parseTimestamp startTs with
    | error e => rw [ht1] at h; exact absurd h (by simp)
    | ok startT =>
      rw [ht1] at h
      cases ht2 : parseTimestamp endTs with
      | error e => rw [ht2] at h; exact absurd h (by simp)
      | ok endT =>
        rw [ht2] at h
        dsimp only at h
        have hinv2 : srInv { st with
            startTime := some startT, endTime := some endT } := hinv
        by_cases hx : strContains (pyUpper endTs) "X"
        · rw [if_pos hx] at h
          cases hap : parseAbsolutePosition (pyUpper endTs) with
          | error e => rw [hap] at h; exact absurd h (by simp)
          | ok ap? =>
            rw [hap] at h
            cases ap? with
            | none =>
              cases h
              exact hinv2
            | some ap =>
              cases h
              constructor
              · intro f hf
                rcases List.mem_append.mp hf with hf | hf
                · exact hinv2.1 f hf
                · rw [List.mem_singleton] at hf
                  subst hf
                  exact parseAbsolutePosition_pos hap
              · exact hinv2.2
        · rw [if_neg hx] at h
          cases h
          exact hinv2

/-- `_on_content_state` preserves the SubRip invariant. -/
theorem onContentState_inv {st : SubRipState} (line : String)
    (h : srInv st) : srInv (onContentState st line) := by
  unfold onContentState
  split <;> exact h

/-- One dispatched line preserves the SubRip invariant. -/
theorem subRipStepLine_inv {st st' : SubRipState} {l : String}
    (h : subRipStepLine st l = .ok st') (hinv : srInv st) : srInv st' := by
  unfold subRipStepLine at h
  cases hst : st.state with
  | index =>
    rw [hst] at h
    cases h
    exact onIndexState_inv _ hinv
  | time =>
    rw [hst] at h
    exact onTimeState_inv h hinv
  | content =>
    rw [hst] at h
    cases h
    exact onContentState_inv _ hinv

/-- Folding the line dispatcher preserves the SubRip invariant. -/
theorem subRipRunLines_inv (lines : List String) :
    ∀ {st st' : SubRipState}, subRipRunLines st lines = .ok st' →
      srInv st → srInv st' := by
  induction lines with
  | nil =>
    intro st st' h hinv
    simp only [subRipRunLines, List.foldlM, pure, Except.pure,
      Except.ok.injEq] at h
    subst h
    exact hinv
  | cons l ls ih =>
    intro st st' h hinv
    simp only [subRipRunLines, List.foldlM_cons] at h
    obtain ⟨st1, hst1, hrest⟩ := exceptBindOk h
    exact ih hrest (subRipStepLine_inv hst1 hinv)

/-- A fresh SubRip parser satisfies the invariant. -/
theorem subRipInit_inv : srInv subRipInit := by
  constructor <;> intro x hx <;> exact absurd hx (List.not_mem_nil x)

/-- Every successful SubRip parse yields only invariant-satisfying cues. -/
theorem subRipParse_spanOk {input : String} {res : Subtitle}
    (h : subRipParseText input = .ok res) :
    ∀ u ∈ res, ∀ f ∈ u.formattings, spanOk f u.text = true := by
  unfold subRipParseText at h
  cases hrun : subRipRunLines subRipInit (pyLines (stripBOM input)) with
  | error e => rw [hrun] at h; exact absurd h (by simp)
  | ok st =>
    rw [hrun] at h
    simp only [Except.ok.injEq] at h
    subst h
    have hinv := subRipRunLines_inv _ hrun subRipInit_inv
    cases st.startTime with
    | none => exact hinv.2
    | some s =>
      cases st.endTime with
      | none => exact hinv.2
      | some e => exact (storeUnit_inv hinv).2

/-- `str.join` length: each part contributes its length plus one separator
(counted once too often, hence the `+ sep.length` on the left). -/
theorem pyJoin_length (sep : String) (l : List String) (hne : l ≠ []) :
    (pyJoin sep l).length + sep.length =
      (l.map fun s => s.length + sep.length).sum := by
  induction l with
  | nil => exact absurd rfl hne
  | cons x xs ih =>
    cases xs with
    | nil => simp [pyJoin]
    | cons y ys =>
      rw [show pyJoin sep (x :: y :: ys) = x ++ sep ++ pyJoin sep (y :: ys)
        from rfl]
      have hrec := ih (by simp)
      simp only [List.map_cons, List.sum_cons] at hrec ⊢
      simp only [String.length_append]
      omega

/-- `itertools.accumulate` preserves the length. -/
theorem accSumsGo_length (ms : List Nat) :
    ∀ a : Nat, (accSumsGo a ms).length = ms.length := by
  induction ms with
  | nil => intro a; rfl
  | cons n rest ih =>
    intro a
    simp only [accSumsGo, List.length_cons, ih]

/-- The accumulated values are the prefix sums. -/
theorem accSumsGo_getD (ms : List Nat) :
    ∀ (a i : Nat), i < ms.length →
      (accSumsGo a ms).getD i 0 = a + (ms.take (i + 1)).sum := by
  induction ms with
  | nil => intro a i h; simp at h
  | cons n rest ih =>
    intro a i h
    cases i with
    | zero =>
      simp [accSumsGo, List.getD_cons_zero]
    | succ j =>
      rw [show accSumsGo a (n :: rest) = (a + n) :: accSumsGo (a + n) rest
        from rfl]
      rw [List.getD_cons_succ]
      rw [ih (a + n) j (by simpa using h)]
      rw [List.take_succ_cons, List.sum_cons]
      omega

/-- A prefix sum never exceeds the total. -/
theorem sumTakeLe (l : List Nat) : ∀ k : Nat, (l.take k).sum ≤ l.sum := by
  induction l with
  | nil => intro k; simp
  | cons n rest ih =>
    intro k
    cases k with
    | zero => simp
    | succ j =>
      rw [List.take_succ_cons, List.sum_cons, List.sum_cons]
      exact Nat.add_le_add_left (ih j) n

/-- With entries at least one, prefix sums grow strictly. -/
theorem sumTakeStep (l : List Nat) (hm : ∀ m ∈ l, 1 ≤ m) :
    ∀ i : Nat, i < l.length → (l.take i).sum + 1 ≤ (l.take (i + 1)).sum := by
  induction l with
  | nil => intro i h; simp at h
  | cons n rest ih =>
    intro i hi
    cases i with
    | zero =>
      simpa using hm n (List.mem_cons_self _ _)
    | succ j =>
      rw [List.take_succ_cons, List.take_succ_cons, List.sum_cons,
        List.sum_cons]
      have := ih (fun m hm2 => hm m (List.mem_cons_of_mem _ hm2)) j
        (by simpa using hi)
      omega

/-- The split worker never returns an empty list. -/
theorem pySplitGo_ne_nil (fuel : Nat) :
    ∀ (sep cs : List Char) (max? : Option Nat) (acc : List Char),
      pySplitGo sep fuel cs max? acc ≠ [] := by
  induction fuel with
  | zero => intro sep cs max? acc; simp [pySplitGo]
  | succ n ih =>
    intro sep cs max? acc
    cases cs with
    | nil => simp [pySplitGo]
    | cons c rest =>
      rw [show pySplitGo sep (n + 1) (c :: rest) max? acc =
          if sep ≠ [] ∧ sep.isPrefixOf (c :: rest) ∧ (max?.getD 1) ≠ 0 then
            acc.reverse ::
              pySplitGo sep n (List.drop (sep.length - 1) rest)
                (max?.map (· - 1)) []
          else pySplitGo sep n rest max? (c :: acc) from rfl]
      split
      · simp
      · exact ih sep rest max? (c :: acc)

/-- Python `str.split(sep)` never returns an empty list. -/
theorem pySplitSep_ne_nil (s sep : String) (max? : Option Nat) :
    pySplitSep s sep max? ≠ [] := by
  unfold pySplitSep
  intro h
  rw [List.map_eq_nil_iff] at h
  exact pySplitGo_ne_nil _ _ _ _ _ h

/-- Enumerated indices are bounded by the offset plus the length. -/
theorem mem_enumFrom_fst_lt {α : Type} (l : List α) :
    ∀ (n : Nat) (q : Nat × α), q ∈ List.enumFrom n l → q.1 < n + l.length := by
  induction l with
  | nil => intro n q h; simp [List.enumFrom] at h
  | cons x xs ih =>
    intro n q h
    rw [show List.enumFrom n (x :: xs) = (n, x) :: List.enumFrom (n + 1) xs
      from rfl] at h
    rcases List.mem_cons.mp h with h | h
    · subst h
      simp
    · have := ih (n + 1) q h
      simp only [List.length_cons]
      omega

/-- The per-line span of `_parse_content` is well-formed: nonnegative,
ordered, and bounded by the rejoined text length. -/
theorem perLineSpan_bounds (cleanLines : List String) (i : Nat)
    (hne : cleanLines ≠ []) (hi : i < cleanLines.length) :
    0 ≤ (perLineSpan (accSums (cleanLines.map fun l => l.length + 1)) i).1 ∧
    (perLineSpan (accSums (cleanLines.map fun l => l.length + 1)) i).1 ≤
      (perLineSpan (accSums (cleanLines.map fun l => l.length + 1)) i).2 ∧
    (perLineSpan (accSums (cleanLines.map fun l => l.length + 1)) i).2 ≤
      ((pyJoin "\n" cleanLines).length : Int) := by
  have hlen : (cleanLines.map fun l => l.length + 1).length =
      cleanLines.length := List.length_map _ _
  have hmem : ∀ m ∈ cleanLines.map fun l => l.length + 1, 1 ≤ m := by
    intro m hm
    obtain ⟨l, _, rfl⟩ := List.mem_map.mp hm
    omega
  have hsum : (pyJoin "\n" cleanLines).length + 1 =
      (cleanLines.map fun l => l.length + 1).sum := by
    have := pyJoin_length "\n" cleanLines hne
    simpa only [show ("\n" : String).length = 1 from rfl] using this
  have hgd : ∀ j, j < cleanLines.length →
      (accSums (cleanLines.map fun l => l.length + 1)).getD j 0 =
        ((cleanLines.map fun l => l.length + 1).take (j + 1)).sum := by
    intro j hj
    unfold accSums
    rw [accSumsGo_getD _ 0 j (by rw [hlen]; exact hj)]
    omega
  unfold perLineSpan
  by_cases h0 : i = 0
  · subst h0
    rw [if_pos rfl]
    have hhd : (accSums (cleanLines.map fun l => l.length + 1)).headD 0 =
        (accSums (cleanLines.map fun l => l.length + 1)).getD 0 0 := by
      cases accSums (cleanLines.map fun l => l.length + 1) with
      | nil => rfl
      | cons a rest => rfl
    rw [hhd, hgd 0 hi]
    simp only [Nat.zero_add]
    have h1 : 1 ≤ ((cleanLines.map fun l => l.length + 1).take 1).sum := by
      have := sumTakeStep _ hmem 0 (by rw [hlen]; exact hi)
      simpa using this
    have h2 : ((cleanLines.map fun l => l.length + 1).take 1).sum ≤
        (cleanLines.map fun l => l.length + 1).sum := sumTakeLe _ 1
    refine ⟨le_refl 0, ?_, ?_⟩ <;> omega
  · rw [if_neg h0]
    obtain ⟨j, rfl⟩ : ∃ j, i = j + 1 := ⟨i - 1, by omega⟩
    have hj1 : j < cleanLines.length := by omega
    rw [show j + 1 - 1 = j from rfl]
    rw [hgd j hj1, hgd (j + 1) hi]
    have h3 := sumTakeStep _ hmem (j + 1) (by rw [hlen]; exact hi)
    have h4 : ((cleanLines.map fun l => l.length + 1).take (j + 1 + 1)).sum ≤
        (cleanLines.map fun l => l.length + 1).sum := sumTakeLe _ (j + 1 + 1)
    refine ⟨?_, ?_, ?_⟩ <;> omega

/-- `formattings_from_control_codes` yields only spans over the requested
offsets or cue-scoped positions. -/
theorem formattingsFromControlCodes_span {code value : String} {s e : Int}
    {out : List Formatting}
    (h : formattingsFromControlCodes code value s e = .ok out) :
    ∀ f ∈ out,
      Formatting.span? f = some (s, e) ∨ Formatting.span? f = none := by
  simp only [formattingsFromControlCodes] at h
  by_cases hy : pyLower code = "y"
  · rw [if_pos hy] at h
    simp only [Except.ok.injEq] at h
    subst h
    intro f hf
    rcases List.mem_append.mp hf with hf | hf
    · rcases List.mem_append.mp hf with hf | hf
      · split at hf
        · rw [List.mem_singleton] at hf; subst hf; exact Or.inl rfl
        · exact absurd hf (List.not_mem_nil f)
      · split at hf
        · rw [List.mem_singleton] at hf; subst hf; exact Or.inl rfl
        · exact absurd hf (List.not_mem_nil f)
    · split at hf
      · rw [List.mem_singleton] at hf; subst hf; exact Or.inl rfl
      · exact absurd hf (List.not_mem_nil f)
  · rw [if_neg hy] at h
    by_cases hc : pyLower code = "c"
    · rw [if_pos hc] at h
      cases hcol : colorFromBgrHex s e value with
      | none => rw [hcol] at h; exact absurd h (by simp)
      | some c =>
        rw [hcol] at h
        simp only [Except.ok.injEq] at h
        subst h
        intro f hf
        rw [List.mem_singleton] at hf
        subst hf
        exact Or.inl (colorFromBgrHex_span hcol)
    · rw [if_neg hc] at h
      by_cases hfc : pyLower code = "f"
      · rw [if_pos hfc] at h
        simp only [Except.ok.injEq] at h
        subst h
        intro f hf
        rw [List.mem_singleton] at hf
        subst hf
        exact Or.inl rfl
      · rw [if_neg hfc] at h
        by_cases hs : pyLower code = "s"
        · rw [if_pos hs] at h
          cases hn : pyIntOfString value with
          | none =>
            rw [hn] at h
            simp only [Except.ok.injEq] at h
            subst h
            intro f hf
            exact absurd hf (List.not_mem_nil f)
          | some n =>
            rw [hn] at h
            simp only [Except.ok.injEq] at h
            subst h
            intro f hf
            rw [List.mem_singleton] at hf
            subst hf
            exact Or.inl rfl
        · rw [if_neg hs] at h
          by_cases hp : pyLower code = "p"
          · rw [if_pos hp] at h
            simp only [Except.ok.injEq] at h
            subst h
            intro f hf
            split at hf
            · rw [List.mem_singleton] at hf; subst hf; exact Or.inr rfl
            · exact absurd hf (List.not_mem_nil f)
          · rw [if_neg hp] at h
            simp only [Except.ok.injEq] at h
            subst h
            intro f hf
            exact absurd hf (List.not_mem_nil f)

/-- The `Y`-entry fold over the collected letter sets yields only spans
over the requested offsets or positions. -/
theorem appendFFCCFold_span (code : String) (s e : Int) :
    ∀ (vals : List String) (a out : List Formatting),
      vals.foldlM (appendFFCC code s e) a = .ok out →
      (∀ f ∈ a,
        Formatting.span? f = some (s, e) ∨ Formatting.span? f = none) →
      ∀ f ∈ out,
        Formatting.span? f = some (s, e) ∨ Formatting.span? f = none := by
  intro vals
  induction vals with
  | nil =>
    intro a out h ha
    simp only [List.foldlM, pure, Except.pure, Except.ok.injEq] at h
    subst h
    exact ha
  | cons v vs ih =>
    intro a out h ha
    rw [List.foldlM_cons] at h
    obtain ⟨m, hm, hrest⟩ := exceptBindOk h
    refine ih m out hrest ?_
    unfold appendFFCC at hm
    cases hffcc : formattingsFromControlCodes code v s e with
    | error er => rw [hffcc] at hm; exact absurd hm (by simp)
    | ok fs =>
      rw [hffcc] at hm
      cases hm
      intro f hf
      rcases List.mem_append.mp hf with hf | hf
      · exact ha f hf
      · exact formattingsFromControlCodes_span hffcc f hf

/-- One cue-global or per-line dictionary entry yields only spans over the
requested offsets or positions. -/
theorem globalEntryFormattings_span {code : String} {vals : List String}
    {s e : Int} {out : List Formatting}
    (h : globalEntryFormattings code vals s e = .ok out) :
    ∀ f ∈ out,
      Formatting.span? f = some (s, e) ∨ Formatting.span? f = none := by
  unfold globalEntryFormattings at h
  split_ifs at h with hy
  · exact appendFFCCFold_span code s e vals [] out h
      (by intro f hf; exact absurd hf (List.not_mem_nil f))
  · exact formattingsFromControlCodes_span h

/-- The cue-global formatting fold of `_parse_content` preserves the span
invariant against the rejoined text. -/
theorem globalFoldM_spanOk (raw : String) :
    ∀ (cvs : List (String × List String)) (a out : List Formatting),
      cvs.foldlM (globalFold ((raw.length : Nat) : Int)) a = .ok out →
      (∀ f ∈ a, spanOk f raw = true) → ∀ f ∈ out, spanOk f raw = true := by
  intro cvs
  induction cvs with
  | nil =>
    intro a out h ha
    simp only [List.foldlM, pure, Except.pure, Except.ok.injEq] at h
    subst h
    exact ha
  | cons cv cvs ih =>
    intro a out h ha
    rw [List.foldlM_cons] at h
    obtain ⟨m, hm, hrest⟩ := exceptBindOk h
    refine ih m out hrest ?_
    unfold globalFold at hm
    cases hge : globalEntryFormattings cv.1 cv.2 0 ((raw.length : Nat) : Int)
        with
    | error er => rw [hge] at hm; exact absurd hm (by simp)
    | ok fs =>
      rw [hge] at hm
      cases hm
      intro f hf
      rcases List.mem_append.mp hf with hf | hf
      · exact ha f hf
      · rcases globalEntryFormattings_span hge f hf with hsp | hsp
        · exact spanOk_of_span raw hsp (le_refl 0) (Int.ofNat_nonneg _)
            (le_refl _)
        · exact spanOk_of_none raw hsp

/-- The per-line formatting fold of `_parse_content` preserves the span
invariant, provided every key indexes an actual line. -/
theorem perLineFoldM_spanOk (cleanLines : List String)
    (hne : cleanLines ≠ []) :
    ∀ (kvs : List ((Nat × String) × List String)) (a out : List Formatting),
      (∀ kv ∈ kvs, kv.1.1 < cleanLines.length) →
      kvs.foldlM
        (perLineFold (accSums (cleanLines.map fun l => l.length + 1))) a =
        .ok out →
      (∀ f ∈ a, spanOk f (pyJoin "\n" cleanLines) = true) →
      ∀ f ∈ out, spanOk f (pyJoin "\n" cleanLines) = true := by
  intro kvs
  induction kvs with
  | nil =>
    intro a out _ h ha
    simp only [List.foldlM, pure, Except.pure, Except.ok.injEq] at h
    subst h
    exact ha
  | cons kv kvs ih =>
    intro a out hkeys h ha
    rw [List.foldlM_cons] at h
    obtain ⟨m, hm, hrest⟩ := exceptBindOk h
    refine ih m out (fun x hx => hkeys x (List.mem_cons_of_mem _ hx))
      hrest ?_
    unfold perLineFold at hm
    cases hge : globalEntryFormattings kv.1.2 kv.2
        (perLineSpan (accSums (cleanLines.map fun l => l.length + 1))
          kv.1.1).1
        (perLineSpan (accSums (cleanLines.map fun l => l.length + 1))
          kv.1.1).2 with
    | error er => rw [hge] at hm; exact absurd hm (by simp)
    | ok fs =>
      rw [hge] at hm
      cases hm
      intro f hf
      rcases List.mem_append.mp hf with hf | hf
      · exact ha f hf
      · rcases globalEntryFormattings_span hge f hf with hsp | hsp
        · obtain ⟨hb1, hb2, hb3⟩ := perLineSpan_bounds cleanLines kv.1.1 hne
            (hkeys kv (List.mem_cons_self _ _))
          exact spanOk_of_span _ hsp hb1 hb2 hb3
        · exact spanOk_of_none _ hsp

/-- `defaultdict` insertion keyed by line/code adds only the given key. -/
theorem lineDictAdd_keys (P : Nat × String → Prop) :
    ∀ (d : LineDict) (k : Nat × String) (v : String),
      (∀ ent ∈ d, P ent.1) → P k →
      ∀ ent ∈ lineDictAdd d k v, P ent.1 := by
  intro d
  induction d with
  | nil =>
    intro k v _ hk ent hent
    rw [show lineDictAdd [] k v = [(k, [v])] from rfl,
      List.mem_singleton] at hent
    subst hent
    exact hk
  | cons kv rest ih =>
    intro k v hd hk ent hent
    obtain ⟨k', vs⟩ := kv
    rw [show lineDictAdd ((k', vs) :: rest) k v =
        if k' = k then
          (k', if vs.contains v then vs else vs ++ [v]) :: rest
        else (k', vs) :: lineDictAdd rest k v from rfl] at hent
    split at hent
    · rcases List.mem_cons.mp hent with hent | hent
      · subst hent; exact hd (k', vs) (List.mem_cons_self _ _)
      · exact hd ent (List.mem_cons_of_mem _ hent)
    · rcases List.mem_cons.mp hent with hent | hent
      · subst hent; exact hd (k', vs) (List.mem_cons_self _ _)
      · exact ih k v (fun x hx => hd x (List.mem_cons_of_mem _ hx)) hk
          ent hent

/-- One content-scan code step keeps per-line keys below the line count. -/
theorem contentCodeStep_keys {N i : Nat} (hi : i < N)
    (gp : SetDict × PerLineDict) (code : String)
    (h : ∀ ent ∈ gp.2, ent.1.1 < N) :
    ∀ ent ∈ (contentCodeStep i gp code).2, ent.1.1 < N := by
  obtain ⟨g, p⟩ := gp
  simp only at h
  simp only [contentCodeStep]
  by_cases hlen : (pySplitSep code ":").length > 1
  · rw [if_pos hlen]
    by_cases hup :
        pyIsUpper (pyStrip ((pySplitSep code ":").headD "")) = true
    · rw [if_pos hup]
      exact h
    · rw [if_neg hup]
      exact lineDictAdd_keys (fun k => k.1 < N) p _ _ h hi
  · rw [if_neg hlen]
    exact h

/-- Folding the code steps of one line keeps per-line keys bounded. -/
theorem codesFold_keys {N i : Nat} (hi : i < N) (codes : List String) :
    ∀ (gp : SetDict × PerLineDict),
      (∀ ent ∈ gp.2, ent.1.1 < N) →
      ∀ ent ∈ (codes.foldl (contentCodeStep i) gp).2, ent.1.1 < N := by
  induction codes with
  | nil => intro gp h; exact h
  | cons c cs ih =>
    intro gp h
    rw [List.foldl_cons]
    exact ih (contentCodeStep i gp c) (contentCodeStep_keys hi gp c h)

/-- One content-scan line step keeps per-line keys bounded. -/
theorem contentLineStep_keys {N : Nat}
    (acc : List String × SetDict × PerLineDict) (q : Nat × String)
    (hq : q.1 < N) (h : ∀ ent ∈ acc.2.2, ent.1.1 < N) :
    ∀ ent ∈ (contentLineStep acc q).2.2, ent.1.1 < N := by
  obtain ⟨cls, g, p⟩ := acc
  obtain ⟨i, line⟩ := q
  simp only at hq h
  cases hgp : (controlCodesIn line).foldl (contentCodeStep i) (g, p) with
  | mk g' p' =>
    simp only [contentLineStep, hgp]
    have := codesFold_keys hq (controlCodesIn line) (g, p) h
    rw [hgp] at this
    exact this

/-- The whole content scan keeps per-line keys bounded. -/
theorem scanFold_keys {N : Nat} (ps : List (Nat × String)) :
    ∀ (acc : List String × SetDict × PerLineDict),
      (∀ q ∈ ps, q.1 < N) →
      (∀ ent ∈ acc.2.2, ent.1.1 < N) →
      ∀ ent ∈ (ps.foldl contentLineStep acc).2.2, ent.1.1 < N := by
  induction ps with
  | nil => intro acc _ h; exact h
  | cons q qs ih =>
    intro acc hps h
    rw [List.foldl_cons]
    exact ih (contentLineStep acc q)
      (fun x hx => hps x (List.mem_cons_of_mem _ hx))
      (contentLineStep_keys acc q (hps q (List.mem_cons_self _ _)) h)

/-- One content-scan line step appends exactly one clean line. -/
theorem contentLineStep_fst_len
    (acc : List String × SetDict × PerLineDict) (q : Nat × String) :
    (contentLineStep acc q).1.length = acc.1.length + 1 := by
  obtain ⟨cls, g, p⟩ := acc
  obtain ⟨i, line⟩ := q
  cases hgp : (controlCodesIn line).foldl (contentCodeStep i) (g, p) with
  | mk g' p' =>
    simp only [contentLineStep, hgp, List.length_append, List.length_cons,
      List.length_nil]

/-- The content scan emits one clean line per input line. -/
theorem scanFold_fst_len (ps : List (Nat × String)) :
    ∀ (acc : List String × SetDict × PerLineDict),
      (ps.foldl contentLineStep acc).1.length = acc.1.length + ps.length := by
  induction ps with
  | nil => intro acc; simp
  | cons q qs ih =>
    intro acc
    rw [List.foldl_cons, ih (contentLineStep acc q),
      contentLineStep_fst_len acc q, List.length_cons]
    omega

/-- Every successful `_parse_content` yields only formattings satisfying
the span invariant against the text it returns. -/
theorem parseContent_spanOk {defaults : SetDict} {content raw : String}
    {fmts : List Formatting}
    (h : parseContent defaults content = .ok (raw, fmts)) :
    ∀ f ∈ fmts, spanOk f raw = true := by
  simp only [parseContent, parseContentScan] at h
  cases hscan : (pySplitSep content "|").enum.foldl contentLineStep
      ([], defaults, []) with
  | mk cls rest2 =>
  obtain ⟨gc, plc⟩ := rest2
  rw [hscan] at h
  dsimp only at h
  have hclsLen : cls.length = (pySplitSep content "|").length := by
    have hfl := scanFold_fst_len (pySplitSep content "|").enum
      ([], defaults, [])
    rw [hscan] at hfl
    simpa [List.enum_length] using hfl
  have hne : cls ≠ [] := by
    intro hnil
    rw [hnil] at hclsLen
    exact pySplitSep_ne_nil content "|" none
      (List.length_eq_zero.mp hclsLen.symm)
  have hkeys : ∀ ent ∈ plc, ent.1.1 < cls.length := by
    have hsf := @scanFold_keys (pySplitSep content "|").length
      (pySplitSep content "|").enum ([], defaults, [])
      (fun q hq => by
        have := mem_enumFrom_fst_lt (pySplitSep content "|") 0 q hq
        simpa using this)
      (by intro ent hent; exact absurd hent (List.not_mem_nil ent))
    rw [hscan] at hsf
    rw [hclsLen]
    exact hsf
  cases hfold : gc.foldlM
      (globalFold (((pyJoin "\n" cls).length : Nat) : Int)) [] with
  | error e => rw [hfold] at h; exact absurd h (by simp)
  | ok fmts1 =>
    rw [hfold] at h
    dsimp only at h
    cases hfold2 : plc.foldlM
        (perLineFold (accSums (cls.map fun l => l.length + 1))) fmts1 with
    | error e => rw [hfold2] at h; exact absurd h (by simp)
    | ok fmts2 =>
      rw [hfold2] at h
      simp only [Except.ok.injEq, Prod.mk.injEq] at h
      obtain ⟨hr, hf2⟩ := h
      subst hr
      subst hf2
      have h1 : ∀ f ∈ fmts1, spanOk f (pyJoin "\n" cls) = true :=
        globalFoldM_spanOk (pyJoin "\n" cls) gc [] fmts1 hfold
          (by intro f hf; exact absurd hf (List.not_mem_nil f))
      exact perLineFoldM_spanOk cls hne plc fmts1 fmts2 hkeys hfold2 h1

/-- The emitting branch of `_parse_unit` preserves the span invariant on
the cue list. -/
theorem emitUnit_spanOk {st st' : MDState} {a b c : String}
    (h : emitUnit st a b c = .ok st')
    (hinv : ∀ u ∈ st.units, ∀ f ∈ u.formattings, spanOk f u.text = true) :
    ∀ u ∈ st'.units, ∀ f ∈ u.formattings, spanOk f u.text = true := by
  obtain ⟨ef, raw, fmts, hef, hpc, hst⟩ := emitUnit_inv h
  subst hst
  intro u hu f hf
  rcases List.mem_append.mp hu with hu | hu
  · obtain ⟨u', hu', ht, hfm⟩ := unitsAfterDefer_mem hu
    rw [ht]
    exact hinv u' hu' f (hfm ▸ hf)
  · rw [List.mem_singleton] at hu
    subst hu
    exact parseContent_spanOk hpc f hf

/-- `_parse_unit` preserves the span invariant on the cue list. -/
theorem parseUnit_spanOk {st st' : MDState} {l : String}
    (h : parseUnit st l = .ok st')
    (hinv : ∀ u ∈ st.units, ∀ f ∈ u.formattings, spanOk f u.text = true) :
    ∀ u ∈ st'.units, ∀ f ∈ u.formattings, spanOk f u.text = true := by
  unfold parseUnit at h
  split at h
  · cases h; exact hinv
  · split at h
    · cases h; exact hinv
    · exact emitUnit_spanOk h hinv

/-- Folding `_parse_unit` preserves the span invariant on the cue list. -/
theorem foldParseUnit_spanOk (lines : List String) :
    ∀ (st st' : MDState),
      lines.foldlM parseUnit st = .ok st' →
      (∀ u ∈ st.units, ∀ f ∈ u.formattings, spanOk f u.text = true) →
      ∀ u ∈ st'.units, ∀ f ∈ u.formattings, spanOk f u.text = true := by
  induction lines with
  | nil =>
    intro st st' h hinv
    simp only [List.foldlM, pure, Except.pure, Except.ok.injEq] at h
    subst h
    exact hinv
  | cons l ls ih =>
    intro st st' h hinv
    rw [List.foldlM_cons] at h
    obtain ⟨st1, hst1, hrest⟩ := exceptBindOk h
    exact ih st1 st' hrest (parseUnit_spanOk hst1 hinv)

/-- Every successful MicroDVD parse yields only invariant-satisfying
cues. -/
theorem microDVDParse_spanOk {fps0 : PyF} {ffile : Bool} {input : String}
    {res : Subtitle} (h : microDVDParseText fps0 ffile input = .ok res) :
    ∀ u ∈ res, ∀ f ∈ u.formattings, spanOk f u.text = true := by
  unfold microDVDParseText at h
  cases hrun : microDVDRun fps0 ffile input with
  | error e => rw [hrun] at h; simp [Except.map] at h
  | ok stF =>
    rw [hrun] at h
    simp only [Except.map, Except.ok.injEq] at h
    subst h
    cases hff : ffile with
    | true =>
      rw [hff] at hrun
      cases hl : pyLines (stripBOM input) with
      | nil =>
        simp only [microDVDRun, hl, if_true] at hrun
        exact absurd hrun (by simp)
      | cons line rest =>
        simp only [microDVDRun, hl, if_true] at hrun
        obtain ⟨hu0, _⟩ := fpsFromFirstLine_fields ⟨[], fps0, false, []⟩ line
        refine foldParseUnit_spanOk (line :: rest) _ stF hrun ?_
        intro u hu f hf
        have hu' : u ∈ (fpsFromFirstLine ⟨[], fps0, false, []⟩ line).units :=
          hu
        rw [hu0] at hu'
        exact absurd hu' (List.not_mem_nil u)
    | false =>
      rw [hff] at hrun
      simp only [microDVDRun, Bool.false_eq_true, if_false] at hrun
      refine foldParseUnit_spanOk (pyLines (stripBOM input)) _ stF hrun ?_
      intro u hu f hf
      exact absurd hu (List.not_mem_nil u)

/-- Claim C2: for every input string, after any parse
(`SubRipParser.parse_text` or `MicroDVDParser.parse_text`), every
span-scoped formatting of every emitted cue satisfies
`0 ≤ start ≤ end ≤ len(cue.text)` — including spans whose offsets were
shifted when unmatched opening-tag text was spliced back into the plain
text. -/
theorem c2_span_invariant (srtIn mdIn : String) (fps0 : PyF) (ffile : Bool)
    (srtRes mdRes : Subtitle)
    (hsr : subRipParseText srtIn = .ok srtRes)
    (hmd : microDVDParseText fps0 ffile mdIn = .ok mdRes) :
    (∀ u ∈ srtRes, ∀ f ∈ u.formattings, spanOk f u.text = true) ∧
    (∀ u ∈ mdRes, ∀ f ∈ u.formattings, spanOk f u.text = true) :=
  ⟨subRipParse_spanOk hsr, microDVDParse_spanOk hmd⟩

/-- Concrete instance of C2 at one SubRip and one MicroDVD input, each
emitting a bold span. -/
theorem c2_span_invariant_witness :
    spanOk (Formatting.bold 0 5) "Hello" = true ∧
    spanOk (Formatting.bold 0 2) "Hi" = true :=
  ⟨(c2_span_invariant "1\n00:00:00,000 --> 00:00:01,000\n<b>Hello</b>"
      "\x7b1\x7d\x7b10\x7d\x7by:b\x7dHi" ⟨25, 1⟩ false
      [⟨⟨0⟩, ⟨1000⟩, "Hello", [Formatting.bold 0 5]⟩]
      [⟨⟨40⟩, ⟨400⟩, "Hi", [Formatting.bold 0 2]⟩]
      (by decide) (by decide)).1
      ⟨⟨0⟩, ⟨1000⟩, "Hello", [Formatting.bold 0 5]⟩ (by decide)
      (Formatting.bold 0 5) (by decide),
    (c2_span_invariant "1\n00:00:00,000 --> 00:00:01,000\n<b>Hello</b>"
      "\x7b1\x7d\x7b10\x7d\x7by:b\x7dHi" ⟨25, 1⟩ false
      [⟨⟨0⟩, ⟨1000⟩, "Hello", [Formatting.bold 0 5]⟩]
      [⟨⟨40⟩, ⟨400⟩, "Hi", [Formatting.bold 0 2]⟩]
      (by decide) (by decide)).2
      ⟨⟨40⟩, ⟨400⟩, "Hi", [Formatting.bold 0 2]⟩ (by decide)
      (Formatting.bold 0 2) (by decide)⟩

end PySub
